import Mathlib

/-!
Verification of the message-to-Markdown transformation pipeline of
`daily_programmer_helper.py` (OperationCode pybot, pin-manager-bot).

The Python module transforms Slack messages into a Markdown file:
`format_messages` checks a message's `text` against `CHALLENGE_REGEX`,
raising `MessageTypeException` on failure, and otherwise applies three
regex substitutions (title extraction, code-block normalization,
image-link normalization); `parse_channel_history` aggregates a batch;
`parse_message` handles one message; `write_history_to_file` persists the
result and triggers `publish_challenges`.

The embedding below models Python strings as `List Char` and implements a
backtracking regular-expression engine with Python `re` semantics for the
constructs those four patterns use: character classes, concatenation,
alternation, greedy and lazy repetition (with the standard
no-empty-iteration rule), capturing groups, leftmost-first search, and
global substitution.  Python's `\w`/`\s` are modelled at their ASCII
meaning (all inputs of interest are ASCII).  The filesystem and the git
publisher are modelled by an explicit state and an event trace; the
publisher's internals (network, git) are outside the transformation
pipeline and appear as the single `Event.publish` step that
`write_history_to_file` performs after a successful write.
-/

namespace DailyProgrammer

abbrev Str := List Char

/-- The backtick character (codepoint 96), used by the code-block regex. -/
def btick : Char := Char.ofNat 96

/-- Capture groups 1..3 of a regex match (Python `match.group(i)`);
`none` means the group did not participate in the match. -/
structure Groups where
  g1 : Option Str
  g2 : Option Str
  g3 : Option Str
deriving DecidableEq

/-- No group has matched yet. -/
def emptyGroups : Groups := ⟨none, none, none⟩

/-- Record the text captured by group `i`. -/
def setG (i : Nat) (v : Str) (g : Groups) : Groups :=
  if i = 1 then { g with g1 := some v }
  else if i = 2 then { g with g2 := some v }
  else if i = 3 then { g with g3 := some v }
  else g

/-- Abstract syntax of the regular-expression fragment used by the four
patterns of `daily_programmer_helper.py`: empty pattern, single-character
class, concatenation, alternation, greedy star, lazy star, capturing
group. -/
inductive Regex where
  | eps
  | cls (p : Char → Bool)
  | seq (r1 r2 : Regex)
  | alt (r1 r2 : Regex)
  | starG (r : Regex)
  | starL (r : Regex)
  | group (i : Nat) (r : Regex)

/-- A single literal character (`c` in a pattern). -/
def chr (c : Char) : Regex := .cls (fun d => d == c)

/-- A literal string of characters. -/
def strL (w : Str) : Regex := w.foldr (fun c r => .seq (chr c) r) .eps

/-- Greedy `+` (one, then greedily more). -/
def plusG (r : Regex) : Regex := .seq r (.starG r)

/-- Greedy `?` (prefer one occurrence, as Python does). -/
def optG (r : Regex) : Regex := .alt r .eps

/-- Python `\w` at its ASCII meaning: letters, digits, underscore. -/
def isWordChar (c : Char) : Bool := c.isAlphanum || c == '_'

/-- Python `\s` at its ASCII meaning. -/
def isSpaceChar (c : Char) : Bool :=
  c == ' ' || c == '\t' || c == '\n' || c == '\r' || c == '\x0b' || c == '\x0c'

/-- The class `[\w\s]`. -/
def isWordSpace (c : Char) : Bool := isWordChar c || isSpaceChar c

/-- Python `.` (without `re.DOTALL`): any character except a newline. -/
def isDot (c : Char) : Bool := c != '\n'

/-- All matches of a starred body at the current position, in Python's
backtracking priority order.  Each iteration of the body must consume at
least one character (Python's rule that a repetition stops rather than
loop on an empty body match); hence a fuel of `s.length` is exact.
`gr = true` gives greedy order (more iterations first), `gr = false`
lazy order (fewer iterations first). -/
def matchStar (body : Str → Groups → List (Groups × Str)) :
    Nat → Bool → Str → Groups → List (Groups × Str)
  | 0, _, s, g => [(g, s)]
  | n + 1, gr, s, g =>
    let one := (body s g).filter (fun q => q.2.length < s.length)
    let more := one.flatMap (fun q => matchStar body n gr q.2 q.1)
    cond gr (more ++ [(g, s)]) ((g, s) :: more)

/-- All matches of `r` against a prefix of `s`, in Python's backtracking
priority order.  Each element is the resulting group record and the
remaining (unconsumed) suffix; the head of the list is the match Python's
engine reports at this position. -/
def rmatches : Regex → Str → Groups → List (Groups × Str)
  | .eps, s, g => [(g, s)]
  | .cls _, [], _ => []
  | .cls p, c :: t, g => cond (p c) [(g, t)] []
  | .seq r1 r2, s, g => (rmatches r1 s g).flatMap (fun q => rmatches r2 q.2 q.1)
  | .alt r1 r2, s, g => rmatches r1 s g ++ rmatches r2 s g
  | .starG r, s, g => matchStar (fun s' g' => rmatches r s' g') s.length true s g
  | .starL r, s, g => matchStar (fun s' g' => rmatches r s' g') s.length false s g
  | .group i r, s, g =>
      (rmatches r s g).map (fun q => (setG i (s.take (s.length - q.2.length)) q.1, q.2))

/-- Leftmost match of `r` in `s` (Python `re.search` / the scan step of
`re.sub`): the unmatched prefix, the groups, the matched span and the
remaining suffix. -/
def findMatch (r : Regex) : Str → Option (Str × Groups × Str × Str)
  | [] =>
    match (rmatches r [] emptyGroups).head? with
    | some (g, rest) => some ([], g, [], rest)
    | none => none
  | c :: t =>
    match (rmatches r (c :: t) emptyGroups).head? with
    | some (g, rest) =>
        some ([], g, (c :: t).take ((c :: t).length - rest.length), rest)
    | none => (findMatch r t).map (fun q => (c :: q.1, q.2))

/-- Global substitution (Python `re.sub`), fuelled; `s.length + 1` fuel is
always sufficient because every replacement step consumes at least one
character of the remaining text (an empty match advances by one character,
as in Python 3.7+; none of the four patterns can match empty anyway). -/
def subAux (r : Regex) (tmpl : Groups → Str) : Nat → Str → Str
  | 0, s => s
  | n + 1, s =>
    match findMatch r s with
    | none => s
    | some (pre, g, matched, rest) =>
      if matched = [] then
        match rest with
        | [] => pre ++ tmpl g
        | c :: t => pre ++ tmpl g ++ c :: subAux r tmpl n t
      else pre ++ tmpl g ++ subAux r tmpl n rest

/-- Python `re.sub(r, tmpl, s)`. -/
def sub (r : Regex) (tmpl : Groups → Str) (s : Str) : Str :=
  subAux r tmpl (s.length + 1) s

/-- Python `r.search(s)` viewed as a Boolean (the code only tests
truthiness of the match object). -/
def regexSearch (r : Regex) (s : Str) : Bool := (findMatch r s).isSome

/-! ## The four patterns of `DailyProgrammerHelper` -/

/-- `CHALLENGE_REGEX = re.compile(r"===?\s+([\w\s]+)\-?[\w\s]*\s+=?==")`. -/
def CHALLENGE_REGEX : Regex :=
  .seq (chr '=') (.seq (chr '=') (.seq (optG (chr '='))
    (.seq (plusG (.cls isSpaceChar))
      (.seq (.group 1 (plusG (.cls isWordSpace)))
        (.seq (optG (chr '-'))
          (.seq (.starG (.cls isWordSpace))
            (.seq (plusG (.cls isSpaceChar))
              (.seq (optG (chr '=')) (.seq (chr '=') (chr '='))))))))))

/-- `__CODE_BLOCS_REGEX = re.compile(r"(` ` `)((?:[^` ]*\n*)*?)(` ` `)")`
(backticks spaced out in this comment): an opening fence, a lazily
repeated body of non-backtick runs and newline runs, a closing fence. -/
def CODE_BLOCS_REGEX : Regex :=
  .seq (.group 1 (strL [btick, btick, btick]))
    (.seq (.group 2 (.starL (.seq (.starG (.cls (fun c => c != btick)))
                                  (.starG (chr '\n')))))
      (.group 3 (strL [btick, btick, btick])))

/-- `__TITLE_REGEX`: `(?:\*\={3}\s)(.*)(?:\s-\sDaily\sProgrammer\s\={3}\*\n*?\*\[)(.*)(?:\]\*)`. -/
def TITLE_REGEX : Regex :=
  .seq (chr '*') (.seq (chr '=') (.seq (chr '=') (.seq (chr '=')
    (.seq (.cls isSpaceChar)
      (.seq (.group 1 (.starG (.cls isDot)))
        (.seq (.cls isSpaceChar) (.seq (chr '-') (.seq (.cls isSpaceChar)
          (.seq (strL "Daily".toList) (.seq (.cls isSpaceChar)
            (.seq (strL "Programmer".toList) (.seq (.cls isSpaceChar)
              (.seq (strL "===*".toList)
                (.seq (.starL (chr '\n'))
                  (.seq (chr '*') (.seq (chr '[')
                    (.seq (.group 2 (.starG (.cls isDot)))
                      (.seq (chr ']') (chr '*')))))))))))))))))))

/-- The fixed URL prefix recognized by the image regex. -/
def imagesHost : Str := "https://assets.leetcode.com/uploads/".toList

/-- `__IMAGES_REGEX = re.compile(r"<(https://assets\.leetcode\.com/uploads/.*?)>")`. -/
def IMAGES_REGEX : Regex :=
  .seq (chr '<')
    (.seq (.group 1 (.seq (strL imagesHost) (.starL (.cls isDot)))) (chr '>'))

/-- Replacement template `r"\2 -- \1"` of the title substitution. -/
def titleTmpl (g : Groups) : Str :=
  g.g2.getD [] ++ " -- ".toList ++ g.g1.getD []

/-- Replacement template `r"\1\n\2\n\3"` of the code-block substitution. -/
def codeTmpl (g : Groups) : Str :=
  g.g1.getD [] ++ '\n' :: g.g2.getD [] ++ '\n' :: g.g3.getD []

/-- Replacement template `r"![Illustration](\1)\n"` of the image substitution. -/
def imageTmpl (g : Groups) : Str :=
  "![Illustration](".toList ++ g.g1.getD [] ++ ")\n".toList

/-! ## Messages, the transformer, persistence -/

/-- A Slack message record: the `text` field (possibly absent) plus the
other fields (`ts`, `user`, ...) which the transformer never reads but the
raised exception carries along with the text. -/
structure Message where
  text : Option Str
  ts : Str
deriving DecidableEq

/-- `MessageTypeException(error, message)`. -/
structure MessageTypeException where
  error : Str
  message : Message
deriving DecidableEq

/-- `FileOpeningModeException(error)`. -/
structure FileOpeningModeException where
  error : Str
deriving DecidableEq

/-- `format_messages`: reject messages without `text` or whose text does
not match `CHALLENGE_REGEX`; otherwise apply the title substitution (and
prefix `"## "`), the code-block substitution, and the image substitution,
in that order (lines 158-169 of the source). -/
def format_messages (message : Message) : Except MessageTypeException Str :=
  match message.text with
  | none =>
      .error ⟨"The message doesn't match the pattern".toList, message⟩
  | some text =>
      if regexSearch CHALLENGE_REGEX text then
        let t1 := "## ".toList ++ sub TITLE_REGEX titleTmpl text
        let t2 := sub CODE_BLOCS_REGEX codeTmpl t1
        let t3 := sub IMAGES_REGEX imageTmpl t2
        .ok t3
      else
        .error ⟨"The message doesn't match the pattern".toList, message⟩

/-- `__challenges_separator = "\n\n\n---\n\n\n"`. -/
def challenges_separator : Str := "\n\n\n---\n\n\n".toList

/-- Observable filesystem / publisher actions of the writer, in order. -/
inductive Event where
  | mkdir
  | fileWrite (mode : Char) (content : Str)
  | publish
deriving DecidableEq

/-- The state the writer touches: whether `ToBePublished/` exists and the
content of `ToBePublished/index.md` (`none` = absent). -/
structure FS where
  dirExists : Bool
  fileContent : Option Str
deriving DecidableEq

/-- `write_history_to_file(challenges, mode)` (lines 171-194): reject a
mode outside `('a', 'w')` before any filesystem action; otherwise create
the directory if missing, open the file in `mode` and write `challenges`,
then call `publish_challenges()`.  Returns the new state, the ordered
event trace, and the error outcome. -/
def write_history_to_file (challenges : Str) (mode : Char) (fs : FS) :
    FS × List Event × Except FileOpeningModeException Unit :=
  if mode ≠ 'a' ∧ mode ≠ 'w' then
    (fs, [], .error ⟨"Given mode isn't 'a' or 'w'!".toList⟩)
  else
    let fs1 := if fs.dirExists then fs else { fs with dirExists := true }
    let ev1 : List Event := if fs.dirExists then [] else [.mkdir]
    let newContent :=
      if mode = 'w' then challenges else fs1.fileContent.getD [] ++ challenges
    ({ fs1 with fileContent := some newContent },
     ev1 ++ [.fileWrite mode challenges, .publish], .ok ())

/-- The aggregation loop of `parse_channel_history` (lines 91-100): walk
the messages newest-first history in reverse, appending each formatted
challenge followed by the separator, skipping `MessageTypeException`. -/
def historyBlob (messages : List Message) : Str :=
  messages.reverse.foldl
    (fun acc m =>
      match format_messages m with
      | .ok text => acc ++ text ++ challenges_separator
      | .error _ => acc)
    []

/-- `parse_channel_history` (lines 80-103): aggregate, then write in mode
`'w'` only when the aggregate is non-empty. -/
def parse_channel_history (messages : List Message) (fs : FS) :
    FS × List Event × Except FileOpeningModeException Unit :=
  let blob := historyBlob messages
  if blob ≠ [] then write_history_to_file blob 'w' fs
  else (fs, [], .ok ())

/-- `parse_message` (lines 105-118): format one message and write it in
the default mode `'a'`, skipping `MessageTypeException`. -/
def parse_message (message : Message) (fs : FS) :
    FS × List Event × Except FileOpeningModeException Unit :=
  match format_messages message with
  | .ok text => write_history_to_file text 'a' fs
  | .error _ => (fs, [], .ok ())

/-- Does `pat` occur as a contiguous substring of `s`? (Used to state the
spec's description of the challenge pattern.) -/
def containsSub (pat : Str) : Str → Bool
  | [] => pat.isPrefixOf []
  | c :: t => pat.isPrefixOf (c :: t) || containsSub pat t

/-- The spec's description of the challenge pattern, amended to the
two-or-three equals signs the regex actually accepts: a run of two or
three `=`, whitespace, a nonempty word/whitespace phrase, an optional
hyphen with a word/whitespace qualifier, whitespace, and a run of two or
three `=`, occurring anywhere in the text. -/
def specChallenge (t : Str) : Prop :=
  ∃ pre e1 s1 w hy t2 s2 e2 post : Str,
    t = pre ++ (e1 ++ (s1 ++ (w ++ (hy ++ (t2 ++ (s2 ++ (e2 ++ post))))))) ∧
    (e1 = ['=', '='] ∨ e1 = ['=', '=', '=']) ∧
    s1 ≠ [] ∧ (∀ c ∈ s1, isSpaceChar c = true) ∧
    w ≠ [] ∧ (∀ c ∈ w, isWordSpace c = true) ∧
    (hy = [] ∨ hy = ['-']) ∧
    (∀ c ∈ t2, isWordSpace c = true) ∧
    s2 ≠ [] ∧ (∀ c ∈ s2, isSpaceChar c = true) ∧
    (e2 = ['=', '='] ∨ e2 = ['=', '=', '='])

/-- Characters of a date-phrase or title in the amended C1 statement:
alphanumeric or space. -/
def alnumSpace (c : Char) : Bool := c.isAlphanum || c == ' '

/-- The text following the date banner in a title-shaped message: `k`
newlines, then the bracketed title line, then the remainder. -/
def titleAfter (T rest : Str) (k : Nat) : Str :=
  List.replicate k '\n' ++ ("*[".toList ++ (T ++ ("]*".toList ++ rest)))

/-- A message text in the source order of the title pattern: the date
banner line, `k` newlines, the bracketed title line, and the remainder. -/
def mkTitleText (D : Str) (k : Nat) (T rest : Str) : Str :=
  "*=== ".toList ++ (D ++ (" - Daily Programmer ===*".toList ++
    (List.replicate k '\n' ++ ("*[".toList ++ (T ++ ("]*".toList ++ rest))))))

/-! ## Engine lemmas: the remaining suffix is a suffix of the input -/

theorem matchStar_suffix {body : Str → Groups → List (Groups × Str)}
    (hb : ∀ s g q, q ∈ body s g → q.2 <:+ s) :
    ∀ (n : Nat) (gr : Bool) (s : Str) (g : Groups) (q : Groups × Str),
      q ∈ matchStar body n gr s g → q.2 <:+ s := by
  intro n
  induction n with
  | zero =>
    intro gr s g q hq
    simp only [matchStar, List.mem_singleton] at hq
    subst hq
    exact List.suffix_refl _
  | succ n ih =>
    intro gr s g q hq
    simp only [matchStar] at hq
    have hq' : q = (g, s) ∨ q ∈ (((body s g).filter fun q => q.2.length < s.length).flatMap
        fun p => matchStar body n gr p.2 p.1) := by
      cases gr with
      | false =>
        simp only [cond_false, List.mem_cons] at hq
        exact hq
      | true =>
        simp only [cond_true, List.mem_append, List.mem_singleton] at hq
        exact hq.symm.imp id id
    rcases hq' with h | h
    · subst h
      exact List.suffix_refl _
    · rcases List.mem_flatMap.mp h with ⟨p, hp, hqp⟩
      have hp' := List.mem_filter.mp hp
      exact (ih gr p.2 p.1 q hqp).trans (hb s g p hp'.1)

theorem rmatches_suffix :
    ∀ (r : Regex) (s : Str) (g : Groups) (q : Groups × Str),
      q ∈ rmatches r s g → q.2 <:+ s := by
  intro r
  induction r with
  | eps =>
    intro s g q hq
    simp only [rmatches, List.mem_singleton] at hq
    subst hq
    exact List.suffix_refl _
  | cls p =>
    intro s g q hq
    cases s with
    | nil => simp [rmatches] at hq
    | cons c t =>
      simp only [rmatches] at hq
      cases hpc : p c with
      | false => rw [hpc] at hq; simp at hq
      | true =>
        rw [hpc] at hq
        simp only [cond_true, List.mem_singleton] at hq
        subst hq
        exact (List.suffix_cons c t)
  | seq r1 r2 ih1 ih2 =>
    intro s g q hq
    simp only [rmatches] at hq
    rcases List.mem_flatMap.mp hq with ⟨p, hp, hqp⟩
    exact (ih2 p.2 p.1 q hqp).trans (ih1 s g p hp)
  | alt r1 r2 ih1 ih2 =>
    intro s g q hq
    simp only [rmatches, List.mem_append] at hq
    rcases hq with h | h
    · exact ih1 s g q h
    · exact ih2 s g q h
  | starG r ih =>
    intro s g q hq
    simp only [rmatches] at hq
    exact matchStar_suffix (fun s' g' q' h => ih s' g' q' h) s.length true s g q hq
  | starL r ih =>
    intro s g q hq
    simp only [rmatches] at hq
    exact matchStar_suffix (fun s' g' q' h => ih s' g' q' h) s.length false s g q hq
  | group i r ih =>
    intro s g q hq
    simp only [rmatches, List.mem_map] at hq
    rcases hq with ⟨p, hp, hqp⟩
    have := ih s g p hp
    subst hqp
    exact this

theorem rmatches_length_le {r : Regex} {s : Str} {g : Groups} {q : Groups × Str}
    (hq : q ∈ rmatches r s g) : q.2.length ≤ s.length :=
  (rmatches_suffix r s g q hq).length_le

/-! ## Membership characterizations -/

theorem mem_rmatches_eps {s : Str} {g : Groups} {q : Groups × Str} :
    q ∈ rmatches .eps s g ↔ q = (g, s) := by
  simp [rmatches]

theorem mem_rmatches_cls {p : Char → Bool} {s : Str} {g : Groups} {q : Groups × Str} :
    q ∈ rmatches (.cls p) s g ↔ ∃ c t, s = c :: t ∧ p c = true ∧ q = (g, t) := by
  cases s with
  | nil => simp [rmatches]
  | cons c t =>
    simp only [rmatches]
    cases hpc : p c with
    | false =>
      simp only [cond_false, List.not_mem_nil, false_iff]
      rintro ⟨c', t', heq, hpc', hq⟩
      cases heq
      rw [hpc] at hpc'
      exact Bool.false_ne_true hpc'
    | true =>
      simp only [cond_true, List.mem_singleton]
      constructor
      · rintro rfl
        exact ⟨c, t, rfl, hpc, rfl⟩
      · rintro ⟨c', t', heq, _, hq⟩
        cases heq
        exact hq

theorem mem_rmatches_chr {c : Char} {s : Str} {g : Groups} {q : Groups × Str} :
    q ∈ rmatches (chr c) s g ↔ ∃ t, s = c :: t ∧ q = (g, t) := by
  rw [chr, mem_rmatches_cls]
  constructor
  · rintro ⟨c', t, rfl, hpc, hq⟩
    rw [beq_iff_eq] at hpc
    subst hpc
    exact ⟨t, rfl, hq⟩
  · rintro ⟨t, rfl, hq⟩
    exact ⟨c, t, rfl, beq_self_eq_true c, hq⟩

theorem mem_rmatches_seq {r1 r2 : Regex} {s : Str} {g : Groups} {q : Groups × Str} :
    q ∈ rmatches (.seq r1 r2) s g ↔
      ∃ p, p ∈ rmatches r1 s g ∧ q ∈ rmatches r2 p.2 p.1 := by
  simp [rmatches, List.mem_flatMap]

theorem mem_rmatches_alt {r1 r2 : Regex} {s : Str} {g : Groups} {q : Groups × Str} :
    q ∈ rmatches (.alt r1 r2) s g ↔ q ∈ rmatches r1 s g ∨ q ∈ rmatches r2 s g := by
  simp [rmatches]

theorem mem_rmatches_opt {r : Regex} {s : Str} {g : Groups} {q : Groups × Str} :
    q ∈ rmatches (optG r) s g ↔ q ∈ rmatches r s g ∨ q = (g, s) := by
  rw [optG, mem_rmatches_alt, mem_rmatches_eps]

theorem mem_rmatches_group {i : Nat} {r : Regex} {s : Str} {g : Groups} {q : Groups × Str} :
    q ∈ rmatches (.group i r) s g ↔
      ∃ p, p ∈ rmatches r s g ∧
        q = (setG i (s.take (s.length - p.2.length)) p.1, p.2) := by
  simp only [rmatches, List.mem_map]
  constructor
  · rintro ⟨p, hp, rfl⟩
    exact ⟨p, hp, rfl⟩
  · rintro ⟨p, hp, rfl⟩
    exact ⟨p, hp, rfl⟩

/-- Membership in a class star (greedy or lazy): some run of class
characters is consumed and the groups are unchanged. -/
theorem mem_matchStar_cls {p : Char → Bool} :
    ∀ (n : Nat) (gr : Bool) (s : Str) (g : Groups) (q : Groups × Str),
      s.length ≤ n →
      (q ∈ matchStar (fun s' g' => rmatches (.cls p) s' g') n gr s g ↔
        ∃ w, s = w ++ q.2 ∧ (∀ c ∈ w, p c = true) ∧ q.1 = g) := by
  intro n
  induction n with
  | zero =>
    intro gr s g q hlen
    have hs : s = [] := List.length_eq_zero.mp (Nat.le_zero.mp hlen)
    subst hs
    simp only [matchStar, List.mem_singleton]
    constructor
    · rintro rfl
      exact ⟨[], rfl, by simp, rfl⟩
    · rintro ⟨w, hw, -, hg⟩
      have : w = [] ∧ q.2 = [] := by
        constructor
        · cases w with
          | nil => rfl
          | cons a wt => simp at hw
        · cases w with
          | nil => simpa using hw.symm
          | cons a wt => simp at hw
      obtain ⟨rfl, h2⟩ := this
      obtain ⟨qg, qs⟩ := q
      simp only at hg h2
      rw [hg, h2]
  | succ n ih =>
    intro gr s g q hlen
    simp only [matchStar]
    have hsplit :
        (q ∈ cond gr
          ((((rmatches (.cls p) s g).filter fun q => q.2.length < s.length).flatMap
              fun p' => matchStar (fun s' g' => rmatches (.cls p) s' g') n gr p'.2 p'.1) ++ [(g, s)])
          ((g, s) :: (((rmatches (.cls p) s g).filter fun q => q.2.length < s.length).flatMap
              fun p' => matchStar (fun s' g' => rmatches (.cls p) s' g') n gr p'.2 p'.1))) ↔
        (q = (g, s) ∨ q ∈ (((rmatches (.cls p) s g).filter fun q => q.2.length < s.length).flatMap
              fun p' => matchStar (fun s' g' => rmatches (.cls p) s' g') n gr p'.2 p'.1)) := by
      cases gr
      · simp
      · simp only [cond_true, List.mem_append, List.mem_singleton]
        exact Or.comm
    rw [hsplit]
    constructor
    · rintro (rfl | hmem)
      · exact ⟨[], rfl, by simp, rfl⟩
      · rcases List.mem_flatMap.mp hmem with ⟨p', hp', hq⟩
        have hp'' := (List.mem_filter.mp hp').1
        rcases mem_rmatches_cls.mp hp'' with ⟨c, t, rfl, hpc, rfl⟩
        have hlen' : t.length ≤ n := by simpa using hlen
        rcases (ih gr t g q hlen').mp hq with ⟨w, hw, hwall, hg⟩
        exact ⟨c :: w, by simp [hw], by
          intro d hd
          rcases List.mem_cons.mp hd with rfl | hd
          · exact hpc
          · exact hwall d hd, hg⟩
    · rintro ⟨w, hw, hwall, hg⟩
      cases w with
      | nil =>
        left
        obtain ⟨qg, qs⟩ := q
        simp only at hg
        simp only [List.nil_append] at hw
        rw [hg, hw]
      | cons c wt =>
        right
        simp only [List.cons_append] at hw
        subst hw
        refine List.mem_flatMap.mpr ⟨(g, wt ++ q.2), ?_, ?_⟩
        · refine List.mem_filter.mpr ⟨?_, by simp [Nat.lt_succ_iff]⟩
          exact mem_rmatches_cls.mpr ⟨c, wt ++ q.2, rfl, hwall c (by simp), rfl⟩
        · refine (ih gr (wt ++ q.2) g q ?_).mpr ⟨wt, rfl, fun d hd => hwall d (by simp [hd]), hg⟩
          have : (c :: (wt ++ q.2)).length ≤ n + 1 := hlen
          simpa using this

theorem mem_rmatches_starG_cls {p : Char → Bool} {s : Str} {g : Groups} {q : Groups × Str} :
    q ∈ rmatches (.starG (.cls p)) s g ↔
      ∃ w, s = w ++ q.2 ∧ (∀ c ∈ w, p c = true) ∧ q.1 = g := by
  simp only [rmatches]
  exact mem_matchStar_cls s.length true s g q (Nat.le_refl _)

theorem mem_rmatches_starL_cls {p : Char → Bool} {s : Str} {g : Groups} {q : Groups × Str} :
    q ∈ rmatches (.starL (.cls p)) s g ↔
      ∃ w, s = w ++ q.2 ∧ (∀ c ∈ w, p c = true) ∧ q.1 = g := by
  simp only [rmatches]
  exact mem_matchStar_cls s.length false s g q (Nat.le_refl _)

theorem mem_rmatches_plusG_cls {p : Char → Bool} {s : Str} {g : Groups} {q : Groups × Str} :
    q ∈ rmatches (plusG (.cls p)) s g ↔
      ∃ w, w ≠ [] ∧ s = w ++ q.2 ∧ (∀ c ∈ w, p c = true) ∧ q.1 = g := by
  rw [plusG, mem_rmatches_seq]
  constructor
  · rintro ⟨p', hp', hq⟩
    rcases mem_rmatches_cls.mp hp' with ⟨c, t, rfl, hpc, rfl⟩
    rcases mem_rmatches_starG_cls.mp hq with ⟨w, hw, hwall, hg⟩
    have hw' : t = w ++ q.2 := hw
    refine ⟨c :: w, by simp, by simp [hw'], ?_, hg⟩
    intro d hd
    rcases List.mem_cons.mp hd with rfl | hd
    · exact hpc
    · exact hwall d hd
  · rintro ⟨w, hne, hw, hwall, hg⟩
    cases w with
    | nil => exact absurd rfl hne
    | cons c wt =>
      subst hw
      refine ⟨(g, wt ++ q.2), ?_, ?_⟩
      · exact mem_rmatches_cls.mpr ⟨c, wt ++ q.2, rfl, hwall c (by simp), rfl⟩
      · exact mem_rmatches_starG_cls.mpr ⟨wt, rfl, fun d hd => hwall d (by simp [hd]), hg⟩

/-! ## Closed forms for literal strings and class stars -/

theorem rmatches_strL (w : Str) :
    ∀ (s : Str) (g : Groups),
      rmatches (strL w) s g =
        if w.isPrefixOf s then [(g, s.drop w.length)] else [] := by
  induction w with
  | nil =>
    intro s g
    simp [strL, rmatches, List.isPrefixOf]
  | cons c w' ih =>
    intro s g
    cases s with
    | nil =>
      simp [strL, rmatches, List.isPrefixOf]
    | cons d t =>
      show rmatches (.seq (chr c) (strL w')) (d :: t) g = _
      simp only [rmatches, chr]
      cases hdc : (d == c) with
      | false =>
        have : (c == d) = false := by
          rw [beq_eq_false_iff_ne] at hdc ⊢
          exact fun h => hdc h.symm
        simp [List.isPrefixOf, this, hdc]
      | true =>
        have hcd : (c == d) = true := by
          rw [beq_iff_eq] at hdc ⊢
          exact hdc.symm
        simp only [List.isPrefixOf, hcd, Bool.true_and, cond_true, List.flatMap_cons,
          List.flatMap_nil, List.append_nil, ih t g]
        split
        · simp [List.length_cons]
        · rfl

theorem rmatches_starG_cls (p : Char → Bool) :
    ∀ (s : Str) (g : Groups),
      rmatches (.starG (.cls p)) s g =
        (List.range ((s.takeWhile p).length + 1)).map
          (fun j => (g, s.drop ((s.takeWhile p).length - j))) := by
  intro s
  induction s with
  | nil => intro g; simp [rmatches, matchStar]
  | cons c t ih =>
    intro g
    show matchStar (fun s' g' => rmatches (.cls p) s' g') (t.length + 1) true (c :: t) g = _
    simp only [matchStar]
    cases hpc : p c with
    | false =>
      simp [rmatches, hpc, List.takeWhile_cons]
    | true =>
      have hone : (rmatches (.cls p) (c :: t) g).filter
          (fun q => decide (q.2.length < (c :: t).length)) = [(g, t)] := by
        simp [rmatches, hpc, Nat.lt_succ_self]
      rw [cond_true, hone]
      have hmore : ([(g, t)]).flatMap
          (fun q => matchStar (fun s' g' => rmatches (.cls p) s' g') t.length true q.2 q.1) =
          rmatches (.starG (.cls p)) t g := by
        simp only [List.flatMap_cons, List.flatMap_nil, List.append_nil]
        rfl
      rw [hmore, ih g, List.takeWhile_cons, hpc]
      simp only [if_true, List.length_cons]
      conv_rhs => rw [List.range_succ]
      rw [List.map_append]
      congr 1
      · refine List.map_congr_left ?_
        intro j hj
        rw [List.mem_range, Nat.lt_succ_iff] at hj
        have harith : (t.takeWhile p).length + 1 - j = ((t.takeWhile p).length - j) + 1 := by
          omega
        rw [harith]
        simp [List.drop_succ_cons]
      · simp

theorem rmatches_starL_cls (p : Char → Bool) :
    ∀ (s : Str) (g : Groups),
      rmatches (.starL (.cls p)) s g =
        (List.range ((s.takeWhile p).length + 1)).map (fun j => (g, s.drop j)) := by
  intro s
  induction s with
  | nil => intro g; simp [rmatches, matchStar]
  | cons c t ih =>
    intro g
    show matchStar (fun s' g' => rmatches (.cls p) s' g') (t.length + 1) false (c :: t) g = _
    simp only [matchStar]
    cases hpc : p c with
    | false =>
      simp [rmatches, hpc, List.takeWhile_cons, List.range_succ]
    | true =>
      have hone : (rmatches (.cls p) (c :: t) g).filter
          (fun q => decide (q.2.length < (c :: t).length)) = [(g, t)] := by
        simp [rmatches, hpc, Nat.lt_succ_self]
      rw [cond_false, hone]
      have hmore : ([(g, t)]).flatMap
          (fun q => matchStar (fun s' g' => rmatches (.cls p) s' g') t.length false q.2 q.1) =
          rmatches (.starL (.cls p)) t g := by
        simp only [List.flatMap_cons, List.flatMap_nil, List.append_nil]
        rfl
      rw [hmore, ih g, List.takeWhile_cons, hpc]
      simp only [if_true, List.length_cons]
      conv_rhs => rw [List.range_succ_eq_map]
      rw [List.map_cons, List.map_map, List.drop_zero]
      congr 1

/-- The capture-group wrapper of a greedy class star, fully enumerated:
candidates in longest-consumed-first order, with the consumed run
captured. -/
theorem rmatches_group_starG_cls (i : Nat) (p : Char → Bool) (s : Str) (g : Groups) :
    rmatches (.group i (.starG (.cls p))) s g =
      (List.range ((s.takeWhile p).length + 1)).map
        (fun j => (setG i (s.take ((s.takeWhile p).length - j)) g,
                   s.drop ((s.takeWhile p).length - j))) := by
  have hm : (s.takeWhile p).length ≤ s.length := (List.takeWhile_prefix p).length_le
  have h1 : rmatches (.group i (.starG (.cls p))) s g =
      (rmatches (.starG (.cls p)) s g).map
        (fun q => (setG i (s.take (s.length - q.2.length)) q.1, q.2)) := rfl
  rw [h1, rmatches_starG_cls, List.map_map]
  refine List.map_congr_left ?_
  intro j hj
  rw [List.mem_range] at hj
  have : s.length - (s.length - ((s.takeWhile p).length - j)) =
      (s.takeWhile p).length - j := by omega
  simp [Function.comp, this]

/-! ## First-match (head) toolkit -/

theorem head?_flatMap_cons_some {α β : Type} {F : α → List β} {x : α} {l : List α} {z : β}
    (h : (F x).head? = some z) : (((x :: l).flatMap F).head?) = some z := by
  rw [List.flatMap_cons]
  cases hFx : F x with
  | nil => rw [hFx] at h; simp at h
  | cons b bs =>
    rw [hFx] at h
    simp only [List.head?_cons] at h
    simp [h]

theorem head?_flatMap_cons_nil {α β : Type} {F : α → List β} {x : α} {l : List α}
    (h : F x = []) : ((x :: l).flatMap F).head? = (l.flatMap F).head? := by
  rw [List.flatMap_cons, h, List.nil_append]

theorem head?_flatMap_append_nil {α β : Type} {F : α → List β} {l₁ l₂ : List α}
    (h : ∀ y ∈ l₁, F y = []) :
    ((l₁ ++ l₂).flatMap F).head? = (l₂.flatMap F).head? := by
  induction l₁ with
  | nil => simp
  | cons x l ih =>
    rw [List.cons_append, head?_flatMap_cons_nil (h x (by simp))]
    exact ih (fun y hy => h y (by simp [hy]))

theorem flatMap_map {α β γ : Type} (h : α → β) (F : β → List γ) (l : List α) :
    (l.map h).flatMap F = l.flatMap (fun a => F (h a)) := by
  induction l with
  | nil => rfl
  | cons x l ih => simp [List.flatMap_cons, ih]

theorem head?_mem' {α : Type} {l : List α} {x : α} (h : l.head? = some x) : x ∈ l := by
  cases l with
  | nil => simp at h
  | cons a t =>
    simp only [List.head?_cons, Option.some_inj] at h
    subst h
    simp

/-! ## findMatch: leftmost-first search -/

theorem findMatch_decomp {r : Regex} :
    ∀ {s pre : Str} {g : Groups} {matched rest : Str},
      findMatch r s = some (pre, g, matched, rest) →
      s = pre ++ matched ++ rest ∧
        (g, rest) ∈ rmatches r (matched ++ rest) emptyGroups := by
  intro s
  induction s with
  | nil =>
    intro pre g matched rest h
    simp only [findMatch] at h
    cases hh : (rmatches r [] emptyGroups).head? with
    | none => rw [hh] at h; cases h
    | some x =>
      obtain ⟨g', rest'⟩ := x
      rw [hh] at h
      injection h with h'
      injection h' with h1 h'
      injection h' with h2 h'
      injection h' with h3 h4
      subst h1; subst h2; subst h3; subst h4
      have hmem := head?_mem' hh
      have hsuf : rest' <:+ ([] : Str) := rmatches_suffix r [] emptyGroups _ hmem
      have : rest' = [] := List.eq_nil_of_suffix_nil hsuf
      subst this
      exact ⟨rfl, hmem⟩
  | cons c t ih =>
    intro pre g matched rest h
    simp only [findMatch] at h
    cases hh : (rmatches r (c :: t) emptyGroups).head? with
    | some x =>
      obtain ⟨g', rest'⟩ := x
      rw [hh] at h
      injection h with h'
      injection h' with h1 h'
      injection h' with h2 h'
      injection h' with h3 h4
      subst h1; subst h2; subst h3; subst h4
      have hmem := head?_mem' hh
      have hsuf : rest' <:+ (c :: t) := rmatches_suffix r (c :: t) emptyGroups _ hmem
      obtain ⟨u, hu⟩ := hsuf
      have hlen : (c :: t).length - rest'.length = u.length := by
        rw [← hu, List.length_append]
        omega
      rw [hlen, ← hu, List.take_left]
      exact ⟨by simp [hu], by rw [hu]; exact hmem⟩
    | none =>
      rw [hh] at h
      cases hfm : findMatch r t with
      | none => rw [hfm] at h; cases h
      | some x =>
        obtain ⟨pre', g', matched', rest'⟩ := x
        rw [hfm] at h
        simp only [Option.map_some'] at h
        injection h with h'
        injection h' with h1 h'
        injection h' with h2 h'
        injection h' with h3 h4
        subst h1; subst h2; subst h3; subst h4
        obtain ⟨ht, hmem⟩ := ih hfm
        exact ⟨by simp [ht], hmem⟩

theorem findMatch_rest_lt {r : Regex} {s pre : Str} {g : Groups} {matched rest : Str}
    (h : findMatch r s = some (pre, g, matched, rest)) (hm : matched ≠ []) :
    rest.length < s.length := by
  have hd := (findMatch_decomp h).1
  have : matched.length ≠ 0 := fun hz => hm (List.length_eq_zero.mp hz)
  rw [hd]
  simp only [List.length_append]
  omega

/-! ## sub: fuel stability and unfolding equations -/

theorem subAux_congr {r : Regex} {tmpl : Groups → Str} :
    ∀ (k : Nat) (s : Str), s.length ≤ k →
      ∀ (n m : Nat), s.length < n → s.length < m →
        subAux r tmpl n s = subAux r tmpl m s := by
  intro k
  induction k with
  | zero =>
    intro s hs n m hn hm
    have hsnil : s = [] := List.length_eq_zero.mp (Nat.le_zero.mp hs)
    subst hsnil
    obtain ⟨n', rfl⟩ : ∃ n', n = n' + 1 := ⟨n - 1, by omega⟩
    obtain ⟨m', rfl⟩ : ∃ m', m = m' + 1 := ⟨m - 1, by omega⟩
    cases hfm : findMatch r [] with
    | none => simp only [subAux, hfm]
    | some x =>
      obtain ⟨pre, g, matched, rest⟩ := x
      have hd := (findMatch_decomp hfm).1
      have hpre : pre = [] := by
        cases pre with
        | nil => rfl
        | cons a b => simp at hd
      have hmat : matched = [] := by
        subst hpre
        cases matched with
        | nil => rfl
        | cons a b => simp at hd
      have hrest : rest = [] := by
        subst hpre; subst hmat
        simpa using hd.symm
      subst hmat; subst hrest
      simp [subAux, hfm]
  | succ k ih =>
    intro s hs n m hn hm
    obtain ⟨n', rfl⟩ : ∃ n', n = n' + 1 := ⟨n - 1, by omega⟩
    obtain ⟨m', rfl⟩ : ∃ m', m = m' + 1 := ⟨m - 1, by omega⟩
    cases hfm : findMatch r s with
    | none => simp only [subAux, hfm]
    | some x =>
      obtain ⟨pre, g, matched, rest⟩ := x
      have hd := (findMatch_decomp hfm).1
      simp only [subAux, hfm]
      by_cases hmat : matched = []
      · subst hmat
        rw [if_pos rfl, if_pos rfl]
        cases rest with
        | nil => rfl
        | cons c t =>
          have hlt : t.length < s.length := by
            rw [hd]
            simp only [List.length_append, List.length_cons]
            omega
          have ht : t.length ≤ k := by omega
          show pre ++ tmpl g ++ c :: subAux r tmpl n' t =
            pre ++ tmpl g ++ c :: subAux r tmpl m' t
          rw [ih t ht n' m' (by omega) (by omega)]
      · have hlt : rest.length < s.length := findMatch_rest_lt hfm hmat
        rw [if_neg hmat, if_neg hmat, ih rest (by omega) n' m' (by omega) (by omega)]

theorem sub_of_findMatch_none {r : Regex} {tmpl : Groups → Str} {s : Str}
    (h : findMatch r s = none) : sub r tmpl s = s := by
  rw [sub]
  simp only [subAux, h]

theorem sub_of_findMatch_some {r : Regex} {tmpl : Groups → Str} {s pre : Str} {g : Groups}
    {matched rest : Str} (h : findMatch r s = some (pre, g, matched, rest))
    (hm : matched ≠ []) :
    sub r tmpl s = pre ++ tmpl g ++ sub r tmpl rest := by
  have hlt : rest.length < s.length := findMatch_rest_lt h hm
  rw [sub]
  simp only [subAux, h, if_neg hm]
  rw [sub, subAux_congr s.length rest (by omega) s.length (rest.length + 1) hlt
    (Nat.lt_succ_self _)]

/-! ## Skipping a prefix whose characters cannot start a match -/

theorem findMatch_append_of_nostart {r : Regex} {cond : Char → Bool}
    (hhead : ∀ c t, rmatches r (c :: t) emptyGroups ≠ [] → cond c = true) :
    ∀ (p q : Str), (∀ c ∈ p, cond c = false) →
      findMatch r (p ++ q) =
        (findMatch r q).map (fun x => (p ++ x.1, x.2)) := by
  intro p
  induction p with
  | nil =>
    intro q _
    rw [List.nil_append]
    cases hq : findMatch r q with
    | none => rfl
    | some x =>
      obtain ⟨a, b⟩ := x
      simp
  | cons c p' ih =>
    intro q hp
    have hnil : rmatches r (c :: (p' ++ q)) emptyGroups = [] := by
      by_contra hne
      have := hhead c (p' ++ q) hne
      rw [hp c (by simp)] at this
      exact Bool.false_ne_true this
    have hh : (rmatches r (c :: (p' ++ q)) emptyGroups).head? = none := by
      rw [hnil]
      rfl
    show findMatch r (c :: (p' ++ q)) = _
    simp only [findMatch]
    rw [hh]
    rw [ih q (fun d hd => hp d (by simp [hd])), Option.map_map]
    rfl

theorem sub_append_of_nostart {r : Regex} {tmpl : Groups → Str} {cond : Char → Bool}
    (hhead : ∀ c t, rmatches r (c :: t) emptyGroups ≠ [] → cond c = true)
    (hcons : ∀ s g' rest', (g', rest') ∈ rmatches r s emptyGroups →
      rest'.length < s.length)
    (p q : Str) (hp : ∀ c ∈ p, cond c = false) :
    sub r tmpl (p ++ q) = p ++ sub r tmpl q := by
  have hfm := findMatch_append_of_nostart hhead p q hp
  cases hq : findMatch r q with
  | none =>
    rw [hq] at hfm
    rw [sub_of_findMatch_none (by rw [hfm]; rfl), sub_of_findMatch_none hq]
  | some x =>
    obtain ⟨pre, g, matched, rest⟩ := x
    rw [hq] at hfm
    simp only [Option.map_some'] at hfm
    have hmem := (findMatch_decomp hq).2
    have hq2 := (findMatch_decomp hq).1
    have hm : matched ≠ [] := by
      intro hmz
      subst hmz
      have := hcons (([] : Str) ++ rest) g rest (by simpa using hmem)
      simp at this
    rw [sub_of_findMatch_some hfm hm, sub_of_findMatch_some hq hm]
    simp [List.append_assoc]

theorem findMatch_append_of_nomatch {r : Regex} :
    ∀ (p q : Str), (∀ i, i < p.length →
        rmatches r ((p ++ q).drop i) emptyGroups = []) →
      findMatch r (p ++ q) =
        (findMatch r q).map (fun x => (p ++ x.1, x.2)) := by
  intro p
  induction p with
  | nil =>
    intro q _
    rw [List.nil_append]
    cases hq : findMatch r q with
    | none => rfl
    | some x =>
      obtain ⟨a, b⟩ := x
      simp
  | cons c p' ih =>
    intro q hp
    have hnil : rmatches r (c :: (p' ++ q)) emptyGroups = [] := by
      have := hp 0 (by simp)
      simpa using this
    have hh : (rmatches r (c :: (p' ++ q)) emptyGroups).head? = none := by
      rw [hnil]
      rfl
    show findMatch r (c :: (p' ++ q)) = _
    simp only [findMatch]
    rw [hh]
    rw [ih q (fun i hi => by
      have := hp (i + 1) (by simp only [List.length_cons]; omega)
      simpa using this), Option.map_map]
    rfl

theorem sub_append_of_nomatch {r : Regex} {tmpl : Groups → Str}
    (hcons : ∀ s g' rest', (g', rest') ∈ rmatches r s emptyGroups →
      rest'.length < s.length)
    (p q : Str) (hp : ∀ i, i < p.length →
      rmatches r ((p ++ q).drop i) emptyGroups = []) :
    sub r tmpl (p ++ q) = p ++ sub r tmpl q := by
  have hfm := findMatch_append_of_nomatch p q hp
  cases hq : findMatch r q with
  | none =>
    rw [hq] at hfm
    rw [sub_of_findMatch_none (by rw [hfm]; rfl), sub_of_findMatch_none hq]
  | some x =>
    obtain ⟨pre, g, matched, rest⟩ := x
    rw [hq] at hfm
    simp only [Option.map_some'] at hfm
    have hmem := (findMatch_decomp hq).2
    have hm : matched ≠ [] := by
      intro hmz
      subst hmz
      have := hcons (([] : Str) ++ rest) g rest (by simpa using hmem)
      simp at this
    rw [sub_of_findMatch_some hfm hm, sub_of_findMatch_some hq hm]
    simp [List.append_assoc]

theorem findMatch_eq_none_of_nomatch {r : Regex} :
    ∀ (s : Str), (∀ i, rmatches r (s.drop i) emptyGroups = []) →
      findMatch r s = none := by
  intro s
  induction s with
  | nil =>
    intro h
    simp only [findMatch]
    have h0 := h 0
    rw [List.drop_zero] at h0
    rw [show (rmatches r [] emptyGroups).head? = none from by rw [h0]; rfl]
  | cons c t ih =>
    intro h
    simp only [findMatch]
    rw [show (rmatches r (c :: t) emptyGroups).head? = none from by
      have := h 0
      rw [List.drop_zero] at this
      rw [this]; rfl]
    rw [ih (fun i => by
      have := h (i + 1)
      rwa [List.drop_succ_cons] at this)]
    rfl

theorem sub_eq_self_of_nomatch {r : Regex} {tmpl : Groups → Str} {s : Str}
    (h : ∀ i, rmatches r (s.drop i) emptyGroups = []) : sub r tmpl s = s :=
  sub_of_findMatch_none (findMatch_eq_none_of_nomatch s h)

theorem findMatch_isSome_iff (r : Regex) :
    ∀ s : Str, (findMatch r s).isSome = true ↔
      ∃ p q : Str, s = p ++ q ∧ rmatches r q emptyGroups ≠ [] := by
  intro s
  induction s with
  | nil =>
    simp only [findMatch]
    cases hh : (rmatches r [] emptyGroups).head? with
    | some x =>
      obtain ⟨g, rest⟩ := x
      simp only [Option.isSome_some, true_iff]
      exact ⟨[], [], rfl, fun hnil => by rw [hnil] at hh; cases hh⟩
    | none =>
      simp only [Option.isSome_none, Bool.false_eq_true, false_iff]
      rintro ⟨p, q, hpq, hne⟩
      have hp : p = [] := by
        cases p with
        | nil => rfl
        | cons a b => simp at hpq
      have hq : q = [] := by
        subst hp
        simpa using hpq.symm
      subst hp; subst hq
      exact hne (List.head?_eq_none_iff.mp hh)
  | cons c t ih =>
    simp only [findMatch]
    cases hh : (rmatches r (c :: t) emptyGroups).head? with
    | some x =>
      obtain ⟨g, rest⟩ := x
      simp only [Option.isSome_some, true_iff]
      exact ⟨[], c :: t, rfl, fun hnil => by rw [hnil] at hh; cases hh⟩
    | none =>
      show (Option.map (fun q => (c :: q.1, q.2)) (findMatch r t)).isSome = true ↔ _
      have hsame : (Option.map (fun q => (c :: q.1, q.2)) (findMatch r t)).isSome =
          (findMatch r t).isSome := by
        cases findMatch r t <;> rfl
      rw [hsame, ih]
      constructor
      · rintro ⟨p, q, hpq, hne⟩
        exact ⟨c :: p, q, by simp [hpq], hne⟩
      · rintro ⟨p, q, hpq, hne⟩
        cases p with
        | nil =>
          exfalso
          simp only [List.nil_append] at hpq
          subst hpq
          exact hne (List.head?_eq_none_iff.mp hh)
        | cons a p' =>
          simp only [List.cons_append, List.cons.injEq] at hpq
          exact ⟨p', q, hpq.2, hne⟩

theorem ne_nil_iff_exists_mem {α : Type} (l : List α) : l ≠ [] ↔ ∃ x, x ∈ l := by
  cases l with
  | nil => simp
  | cons a t => simp [List.mem_cons]

/-! ## Compound membership lemmas for sequenced atoms -/

theorem mem_seq_cls {p : Char → Bool} {r2 : Regex} {s : Str} {g : Groups}
    {q : Groups × Str} :
    q ∈ rmatches (.seq (.cls p) r2) s g ↔
      ∃ c t, s = c :: t ∧ p c = true ∧ q ∈ rmatches r2 t g := by
  rw [mem_rmatches_seq]
  constructor
  · rintro ⟨p', hp', hq⟩
    obtain ⟨c, t, rfl, hpc, rfl⟩ := mem_rmatches_cls.mp hp'
    exact ⟨c, t, rfl, hpc, hq⟩
  · rintro ⟨c, t, rfl, hpc, hq⟩
    exact ⟨(g, t), mem_rmatches_cls.mpr ⟨c, t, rfl, hpc, rfl⟩, hq⟩

theorem mem_seq_chr {c : Char} {r2 : Regex} {s : Str} {g : Groups}
    {q : Groups × Str} :
    q ∈ rmatches (.seq (chr c) r2) s g ↔
      ∃ t, s = c :: t ∧ q ∈ rmatches r2 t g := by
  rw [mem_rmatches_seq]
  constructor
  · rintro ⟨p', hp', hq⟩
    obtain ⟨t, rfl, rfl⟩ := mem_rmatches_chr.mp hp'
    exact ⟨t, rfl, hq⟩
  · rintro ⟨t, rfl, hq⟩
    exact ⟨(g, t), mem_rmatches_chr.mpr ⟨t, rfl, rfl⟩, hq⟩

theorem mem_seq_opt_chrA {c : Char} {r2 : Regex} {s : Str} {g : Groups}
    {q : Groups × Str} :
    q ∈ rmatches (.seq (optG (chr c)) r2) s g ↔
      ((∃ t, s = c :: t ∧ q ∈ rmatches r2 t g) ∨ q ∈ rmatches r2 s g) := by
  rw [mem_rmatches_seq]
  constructor
  · rintro ⟨p', hp', hq⟩
    rcases mem_rmatches_opt.mp hp' with h | h
    · obtain ⟨t, rfl, rfl⟩ := mem_rmatches_chr.mp h
      exact Or.inl ⟨t, rfl, hq⟩
    · rw [h] at hq
      exact Or.inr hq
  · rintro (⟨t, rfl, hq⟩ | hq)
    · exact ⟨(g, t), mem_rmatches_opt.mpr (Or.inl (mem_rmatches_chr.mpr ⟨t, rfl, rfl⟩)), hq⟩
    · exact ⟨(g, s), mem_rmatches_opt.mpr (Or.inr rfl), hq⟩

theorem mem_seq_opt_chr {c : Char} {r2 : Regex} {s : Str} {g : Groups}
    {q : Groups × Str} :
    q ∈ rmatches (.seq (optG (chr c)) r2) s g ↔
      ∃ eo t : Str, (eo = [] ∨ eo = [c]) ∧ s = eo ++ t ∧ q ∈ rmatches r2 t g := by
  rw [mem_seq_opt_chrA]
  constructor
  · rintro (⟨t, rfl, hq⟩ | hq)
    · exact ⟨[c], t, Or.inr rfl, rfl, hq⟩
    · exact ⟨[], s, Or.inl rfl, by simp, hq⟩
  · rintro ⟨eo, t, heo, rfl, hq⟩
    rcases heo with rfl | rfl
    · exact Or.inr (by simpa using hq)
    · exact Or.inl ⟨t, rfl, hq⟩

theorem mem_seq_plusG_cls {p : Char → Bool} {r2 : Regex} {s : Str} {g : Groups}
    {q : Groups × Str} :
    q ∈ rmatches (.seq (plusG (.cls p)) r2) s g ↔
      ∃ w rest, w ≠ [] ∧ s = w ++ rest ∧ (∀ c ∈ w, p c = true) ∧
        q ∈ rmatches r2 rest g := by
  rw [mem_rmatches_seq]
  constructor
  · rintro ⟨p', hp', hq⟩
    obtain ⟨w, hwne, hweq, hwall, hwg⟩ := mem_rmatches_plusG_cls.mp hp'
    obtain ⟨gp, tp⟩ := p'
    simp only at hweq hwg hq
    subst hwg
    exact ⟨w, tp, hwne, hweq, hwall, hq⟩
  · rintro ⟨w, rest, hwne, rfl, hwall, hq⟩
    exact ⟨(g, rest), mem_rmatches_plusG_cls.mpr ⟨w, hwne, rfl, hwall, rfl⟩, hq⟩

theorem mem_seq_starG_cls {p : Char → Bool} {r2 : Regex} {s : Str} {g : Groups}
    {q : Groups × Str} :
    q ∈ rmatches (.seq (.starG (.cls p)) r2) s g ↔
      ∃ w rest, s = w ++ rest ∧ (∀ c ∈ w, p c = true) ∧
        q ∈ rmatches r2 rest g := by
  rw [mem_rmatches_seq]
  constructor
  · rintro ⟨p', hp', hq⟩
    obtain ⟨w, hweq, hwall, hwg⟩ := mem_rmatches_starG_cls.mp hp'
    obtain ⟨gp, tp⟩ := p'
    simp only at hweq hwg hq
    subst hwg
    exact ⟨w, tp, hweq, hwall, hq⟩
  · rintro ⟨w, rest, rfl, hwall, hq⟩
    exact ⟨(g, rest), mem_rmatches_starG_cls.mpr ⟨w, rfl, hwall, rfl⟩, hq⟩

theorem mem_seq_group_plusG_cls {i : Nat} {p : Char → Bool} {r2 : Regex} {s : Str}
    {g : Groups} {q : Groups × Str} :
    q ∈ rmatches (.seq (.group i (plusG (.cls p))) r2) s g ↔
      ∃ w rest, w ≠ [] ∧ s = w ++ rest ∧ (∀ c ∈ w, p c = true) ∧
        q ∈ rmatches r2 rest (setG i w g) := by
  rw [mem_rmatches_seq]
  constructor
  · rintro ⟨p', hp', hq⟩
    obtain ⟨pw, hpw, hp''⟩ := mem_rmatches_group.mp hp'
    obtain ⟨w, hwne, hweq, hwall, hwg⟩ := mem_rmatches_plusG_cls.mp hpw
    obtain ⟨gw, tw⟩ := pw
    simp only at hweq hwg
    subst hwg
    subst hweq
    rw [hp''] at hq
    have htake : (w ++ tw).take ((w ++ tw).length - tw.length) = w := by
      have : (w ++ tw).length - tw.length = w.length := by
        rw [List.length_append]
        omega
      rw [this, List.take_left]
    simp only at hq
    rw [htake] at hq
    exact ⟨w, tw, hwne, rfl, hwall, hq⟩
  · rintro ⟨w, rest, hwne, rfl, hwall, hq⟩
    refine ⟨(setG i ((w ++ rest).take ((w ++ rest).length - rest.length)) g, rest),
      mem_rmatches_group.mpr ⟨(g, rest),
        mem_rmatches_plusG_cls.mpr ⟨w, hwne, rfl, hwall, rfl⟩, rfl⟩, ?_⟩
    have htake : (w ++ rest).take ((w ++ rest).length - rest.length) = w := by
      have : (w ++ rest).length - rest.length = w.length := by
        rw [List.length_append]
        omega
      rw [this, List.take_left]
    rw [htake]
    exact hq

/-! ## Characterization of the challenge pattern -/

theorem rmatches_CHALLENGE_iff (s : Str) :
    (∃ q, q ∈ rmatches CHALLENGE_REGEX s emptyGroups) ↔
      ∃ e1 s1 w hy t2 s2 e2 z : Str,
        s = e1 ++ (s1 ++ (w ++ (hy ++ (t2 ++ (s2 ++ (e2 ++ z)))))) ∧
        (e1 = ['=', '='] ∨ e1 = ['=', '=', '=']) ∧
        s1 ≠ [] ∧ (∀ c ∈ s1, isSpaceChar c = true) ∧
        w ≠ [] ∧ (∀ c ∈ w, isWordSpace c = true) ∧
        (hy = [] ∨ hy = ['-']) ∧
        (∀ c ∈ t2, isWordSpace c = true) ∧
        s2 ≠ [] ∧ (∀ c ∈ s2, isSpaceChar c = true) ∧
        (e2 = ['=', '='] ∨ e2 = ['=', '=', '=']) := by
  constructor
  · rintro ⟨q, hq0⟩
    rw [CHALLENGE_REGEX] at hq0
    obtain ⟨t1, rfl, hq1⟩ := mem_seq_chr.mp hq0
    obtain ⟨t2', rfl, hq2⟩ := mem_seq_chr.mp hq1
    obtain ⟨eo, t3, heo, rfl, hq3⟩ := mem_seq_opt_chr.mp hq2
    obtain ⟨s1, t4, hs1ne, rfl, hs1all, hq4⟩ := mem_seq_plusG_cls.mp hq3
    obtain ⟨w, t5, hwne, rfl, hwall, hq5⟩ := mem_seq_group_plusG_cls.mp hq4
    obtain ⟨hy, t6, hhy, rfl, hq6⟩ := mem_seq_opt_chr.mp hq5
    obtain ⟨t2c, t7, rfl, ht2all, hq7⟩ := mem_seq_starG_cls.mp hq6
    obtain ⟨s2, t8, hs2ne, rfl, hs2all, hq8⟩ := mem_seq_plusG_cls.mp hq7
    obtain ⟨eo2, t9, heo2, rfl, hq9⟩ := mem_seq_opt_chr.mp hq8
    obtain ⟨t10, rfl, hq10⟩ := mem_seq_chr.mp hq9
    obtain ⟨z, rfl, hq11⟩ := mem_rmatches_chr.mp hq10
    refine ⟨'=' :: '=' :: eo, s1, w, hy, t2c, s2, eo2 ++ ['=', '='], z,
      by simp [List.append_assoc], ?_, hs1ne, hs1all, hwne, hwall, hhy, ht2all,
      hs2ne, hs2all, ?_⟩
    · rcases heo with rfl | rfl
      · exact Or.inl rfl
      · exact Or.inr rfl
    · rcases heo2 with rfl | rfl
      · exact Or.inl rfl
      · exact Or.inr rfl
  · rintro ⟨e1, s1, w, hy, t2, s2, e2, z, rfl, he1, hs1ne, hs1all, hwne, hwall,
      hhy, ht2all, hs2ne, hs2all, he2⟩
    rw [CHALLENGE_REGEX]
    have he1' : ∃ eo : Str, (eo = [] ∨ eo = ['=']) ∧ e1 = '=' :: '=' :: eo := by
      rcases he1 with rfl | rfl
      · exact ⟨[], Or.inl rfl, rfl⟩
      · exact ⟨['='], Or.inr rfl, rfl⟩
    obtain ⟨eo, heo, rfl⟩ := he1'
    have he2' : ∃ eo2 : Str, (eo2 = [] ∨ eo2 = ['=']) ∧ e2 = eo2 ++ ['=', '='] := by
      rcases he2 with rfl | rfl
      · exact ⟨[], Or.inl rfl, rfl⟩
      · exact ⟨['='], Or.inr rfl, rfl⟩
    obtain ⟨eo2, heo2, rfl⟩ := he2'
    refine ⟨(setG 1 w emptyGroups, z), ?_⟩
    refine mem_seq_chr.mpr ⟨_, rfl, ?_⟩
    refine mem_seq_chr.mpr ⟨_, rfl, ?_⟩
    refine mem_seq_opt_chr.mpr ⟨eo, _, heo, rfl, ?_⟩
    refine mem_seq_plusG_cls.mpr ⟨s1, _, hs1ne, rfl, hs1all, ?_⟩
    refine mem_seq_group_plusG_cls.mpr ⟨w, _, hwne, rfl, hwall, ?_⟩
    refine mem_seq_opt_chr.mpr ⟨hy, _, hhy, rfl, ?_⟩
    refine mem_seq_starG_cls.mpr ⟨t2, _, rfl, ht2all, ?_⟩
    refine mem_seq_plusG_cls.mpr ⟨s2, _, hs2ne, rfl, hs2all, ?_⟩
    refine mem_seq_opt_chr.mpr ⟨eo2, '=' :: '=' :: z, ?_, ?_, ?_⟩
    · exact heo2
    · simp
    refine mem_seq_chr.mpr ⟨_, rfl, ?_⟩
    exact mem_rmatches_chr.mpr ⟨z, rfl, rfl⟩

/-! ## Small computation helpers for first-match proofs -/

theorem rmatches_chr_cons (c : Char) (t : Str) (g : Groups) :
    rmatches (chr c) (c :: t) g = [(g, t)] := by
  simp [chr, rmatches]

theorem rmatches_chr_ne {c c' : Char} (h : c' ≠ c) (t : Str) (g : Groups) :
    rmatches (chr c) (c' :: t) g = [] := by
  have hb : (c' == c) = false := beq_eq_false_iff_ne.mpr h
  simp [chr, rmatches, hb]

theorem rmatches_seq_eq_of_singleton {r1 r2 : Regex} {s s' : Str} {g g' : Groups}
    (h : rmatches r1 s g = [(g', s')]) :
    rmatches (.seq r1 r2) s g = rmatches r2 s' g' := by
  show (rmatches r1 s g).flatMap (fun q => rmatches r2 q.2 q.1) = _
  rw [h]
  simp [List.flatMap_cons]

theorem isPrefixOf_append_self (w x : Str) : w.isPrefixOf (w ++ x) = true := by
  simp [List.isPrefixOf_iff_prefix]

theorem rmatches_strL_append (w x : Str) (g : Groups) :
    rmatches (strL w) (w ++ x) g = [(g, x)] := by
  rw [rmatches_strL, if_pos (isPrefixOf_append_self w x)]
  rw [List.drop_left]

theorem takeWhile_append_of_all {p : Char → Bool} {u : Str} (v : Str)
    (h : ∀ c ∈ u, p c = true) :
    (u ++ v).takeWhile p = u ++ v.takeWhile p := by
  induction u with
  | nil => simp
  | cons c t ih =>
    rw [List.cons_append, List.takeWhile_cons, if_pos (h c (by simp)),
      ih (fun d hd => h d (by simp [hd]))]
    rfl

theorem head?_flatMap_range {α : Type} (H : Nat → List α) (a : Nat) {n : Nat} {z : α}
    (ha : a < n) (hfail : ∀ j, j < a → H j = []) (hhead : (H a).head? = some z) :
    ((List.range n).flatMap H).head? = some z := by
  obtain ⟨b, rfl⟩ : ∃ b, n = a + (b + 1) := ⟨n - a - 1, by omega⟩
  rw [List.range_add, List.flatMap_append]
  have hX : (List.range a).flatMap H = [] := by
    rw [List.flatMap_eq_nil_iff]
    intro j hj
    exact hfail j (List.mem_range.mp hj)
  rw [hX, List.nil_append, flatMap_map, List.range_succ_eq_map, List.flatMap_cons]
  cases hHa : H (a + 0) with
  | nil =>
    rw [show a + 0 = a from rfl] at hHa
    rw [hHa] at hhead
    cases hhead
  | cons x xs =>
    rw [show a + 0 = a from rfl] at hHa
    rw [hHa] at hhead
    simp only [List.head?_cons] at hhead
    simp [hhead.symm]

theorem head?_append_of_head {α : Type} {A B : List α} {z : α}
    (h : A.head? = some z) : (A ++ B).head? = some z := by
  cases A with
  | nil => cases h
  | cons a t => simpa using h

theorem findMatch_of_head {r : Regex} {s : Str} {g : Groups} {rest : Str}
    (h : (rmatches r s emptyGroups).head? = some (g, rest)) :
    findMatch r s = some ([], g, s.take (s.length - rest.length), rest) := by
  cases s with
  | nil => simp [findMatch, h]
  | cons c t => simp [findMatch, h]

/-! ## The image substitution -/

theorem mem_IMAGES_prefix {s : Str} {q : Groups × Str}
    (hq : q ∈ rmatches IMAGES_REGEX s emptyGroups) :
    ('<' :: imagesHost).isPrefixOf s = true := by
  rw [IMAGES_REGEX] at hq
  obtain ⟨t, rfl, hq1⟩ := mem_seq_chr.mp hq
  obtain ⟨pg, hpg, -⟩ := mem_rmatches_seq.mp hq1
  obtain ⟨pi, hpi, -⟩ := mem_rmatches_group.mp hpg
  obtain ⟨ph, hph, -⟩ := mem_rmatches_seq.mp hpi
  rw [rmatches_strL] at hph
  split at hph
  case isTrue hp => simp [List.isPrefixOf, hp]
  case isFalse => simp at hph

theorem rmatches_IMAGES_consumed {s : Str} {g' : Groups} {rest' : Str}
    (hq : (g', rest') ∈ rmatches IMAGES_REGEX s emptyGroups) :
    rest'.length < s.length := by
  rw [IMAGES_REGEX] at hq
  obtain ⟨t, rfl, hq1⟩ := mem_seq_chr.mp hq
  have hsuf : rest'.length ≤ t.length := by
    have := (rmatches_suffix _ t emptyGroups _ hq1).length_le
    simpa using this
  simp only [List.length_cons]
  omega

theorem rmatches_IMAGES_head (u b : Str) (hu : ∀ c ∈ u, c ≠ '>' ∧ c ≠ '\n') :
    (rmatches IMAGES_REGEX
        ('<' :: (imagesHost ++ (u ++ '>' :: b))) emptyGroups).head? =
      some (setG 1 (imagesHost ++ u) emptyGroups, b) := by
  rw [IMAGES_REGEX, rmatches_seq_eq_of_singleton (rmatches_chr_cons '<' _ _)]
  have hinner : rmatches (.seq (strL imagesHost) (.starL (.cls isDot)))
      (imagesHost ++ (u ++ '>' :: b)) emptyGroups =
      rmatches (.starL (.cls isDot)) (u ++ '>' :: b) emptyGroups :=
    rmatches_seq_eq_of_singleton (rmatches_strL_append _ _ _)
  have hall : ∀ c ∈ u, isDot c = true := by
    intro c hc
    have := (hu c hc).2
    simp [isDot, this]
  have hm : ((u ++ '>' :: b).takeWhile isDot).length =
      u.length + (('>' :: b).takeWhile isDot).length := by
    rw [takeWhile_append_of_all _ hall, List.length_append]
  show ((rmatches (.group 1 (.seq (strL imagesHost) (.starL (.cls isDot))))
      (imagesHost ++ (u ++ '>' :: b)) emptyGroups).flatMap
      (fun q => rmatches (chr '>') q.2 q.1)).head? = _
  have hglist : rmatches (.group 1 (.seq (strL imagesHost) (.starL (.cls isDot))))
      (imagesHost ++ (u ++ '>' :: b)) emptyGroups =
      (List.range (((u ++ '>' :: b).takeWhile isDot).length + 1)).map
        (fun j => (setG 1 ((imagesHost ++ (u ++ '>' :: b)).take
            ((imagesHost ++ (u ++ '>' :: b)).length -
              ((u ++ '>' :: b).drop j).length)) emptyGroups,
          (u ++ '>' :: b).drop j)) := by
    show (rmatches (.seq (strL imagesHost) (.starL (.cls isDot)))
        (imagesHost ++ (u ++ '>' :: b)) emptyGroups).map _ = _
    rw [hinner, rmatches_starL_cls, List.map_map]
    rfl
  rw [hglist, flatMap_map]
  refine head?_flatMap_range _ u.length (by omega) ?_ ?_
  · intro j hj
    have hdrop : (u ++ '>' :: b).drop j = (u.drop j) ++ '>' :: b := by
      rw [List.drop_append_of_le_length (by omega)]
    cases hud : u.drop j with
    | nil =>
      have := congrArg List.length hud
      simp only [List.length_drop, List.length_nil] at this
      omega
    | cons c tl =>
      have hc : c ∈ u := by
        have : c ∈ u.drop j := by rw [hud]; simp
        exact List.mem_of_mem_drop this
      rw [hdrop, hud, List.cons_append]
      exact rmatches_chr_ne (hu c hc).1 _ _
  · have hdrop : (u ++ '>' :: b).drop u.length = '>' :: b := List.drop_left u ('>' :: b)
    rw [hdrop, rmatches_chr_cons]
    have htake : (imagesHost ++ (u ++ '>' :: b)).take
        ((imagesHost ++ (u ++ '>' :: b)).length - ('>' :: b).length) =
        imagesHost ++ u := by
      have hlen : (imagesHost ++ (u ++ '>' :: b)).length - ('>' :: b).length =
          imagesHost.length + u.length := by
        simp only [List.length_append, List.length_cons]
        omega
      rw [hlen, List.take_append, List.take_left]
    rw [htake]
    rfl

/-! ## The title substitution -/

theorem alnumSpace_ne {c x : Char} (h : alnumSpace c = true)
    (hx : alnumSpace x = false) : c ≠ x := by
  intro he
  subst he
  rw [hx] at h
  exact Bool.false_ne_true h

theorem rmatches_cls_cons {p : Char → Bool} {c : Char} (h : p c = true)
    (t : Str) (g : Groups) : rmatches (.cls p) (c :: t) g = [(g, t)] := by
  simp [rmatches, h]

theorem rmatches_seq_nil {r1 r2 : Regex} {s : Str} {g : Groups}
    (h : rmatches r1 s g = []) : rmatches (.seq r1 r2) s g = [] := by
  show (rmatches r1 s g).flatMap _ = _
  rw [h]
  rfl

theorem mem_seq_cls_chr_start {p : Char → Bool} {c : Char} {r : Regex} {s : Str}
    {g : Groups} {q : Groups × Str}
    (hq : q ∈ rmatches (.seq (.cls p) (.seq (chr c) r)) s g) :
    ∃ c0 s2, s = c0 :: c :: s2 ∧ p c0 = true := by
  obtain ⟨c0, t, rfl, hp0, hq1⟩ := mem_seq_cls.mp hq
  obtain ⟨s2, rfl, -⟩ := mem_seq_chr.mp hq1
  exact ⟨c0, s2, rfl, hp0⟩

theorem drop_replicate_append {c : Char} : ∀ (j k : Nat), j ≤ k → ∀ t : Str,
    (List.replicate k c ++ t).drop j = List.replicate (k - j) c ++ t := by
  intro j
  induction j with
  | zero => intro k _ t; simp
  | succ j ih =>
    intro k hjk t
    obtain ⟨k', rfl⟩ : ∃ k', k = k' + 1 := ⟨k - 1, by omega⟩
    rw [show List.replicate (k' + 1) c = c :: List.replicate k' c from rfl,
      List.cons_append, List.drop_succ_cons, ih k' (by omega) t]
    congr 2
    omega

theorem rmatches_seq_def (r1 r2 : Regex) (s : Str) (g : Groups) :
    rmatches (.seq r1 r2) s g =
      (rmatches r1 s g).flatMap (fun q => rmatches r2 q.2 q.1) := rfl

theorem alnumSpace_isDot {c : Char} (h : alnumSpace c = true) : isDot c = true := by
  have hne : c ≠ '\n' := alnumSpace_ne h (by decide)
  simp [isDot, hne]

theorem alnumSpace_isWordSpace {c : Char} (h : alnumSpace c = true) :
    isWordSpace c = true := by
  rw [isWordSpace, isWordChar, isSpaceChar]
  rw [alnumSpace, Bool.or_eq_true] at h
  rcases h with h | h
  · simp [h]
  · simp [h]

theorem rest_dotrun {rest : Str}
    (hrest : rest = [] ∨ ∃ r' : Str, rest = '\n' :: r' ∧ r'.head? ≠ some '-') :
    rest.takeWhile isDot = [] := by
  rcases hrest with rfl | ⟨r', rfl, -⟩
  · rfl
  · rw [List.takeWhile_cons, if_neg (by decide)]

theorem titleAfter_dotrun (T rest : Str) (k : Nat)
    (hTall : ∀ c ∈ T, alnumSpace c = true)
    (hrest : rest = [] ∨ ∃ r' : Str, rest = '\n' :: r' ∧ r'.head? ≠ some '-') :
    (titleAfter T rest k).takeWhile isDot =
      if k = 0 then '*' :: ('[' :: (T ++ [']', '*'])) else [] := by
  cases k with
  | zero =>
    rw [if_pos rfl]
    show List.takeWhile isDot ('*' :: ('[' :: (T ++ (']' :: ('*' :: rest))))) = _
    rw [List.takeWhile_cons, if_pos (by decide), List.takeWhile_cons, if_pos (by decide),
      takeWhile_append_of_all _ (fun c hc => alnumSpace_isDot (hTall c hc)),
      List.takeWhile_cons, if_pos (by decide), List.takeWhile_cons, if_pos (by decide),
      rest_dotrun hrest]
  | succ k' =>
    rw [if_neg (Nat.succ_ne_zero k')]
    show List.takeWhile isDot ('\n' :: _) = _
    rw [List.takeWhile_cons, if_neg (by decide)]

theorem title_window (T rest : Str) (k : Nat)
    (hTall : ∀ c ∈ T, alnumSpace c = true)
    (hrest : rest = [] ∨ ∃ r' : Str, rest = '\n' :: r' ∧ r'.head? ≠ some '-') :
    ∀ c ∈ (titleAfter T rest k).take
        (((titleAfter T rest k).takeWhile isDot).length + 2), c ≠ '-' := by
  rw [titleAfter_dotrun T rest k hTall hrest]
  cases k with
  | zero =>
    rw [if_pos rfl]
    have hlen : ('*' :: ('[' :: (T ++ [']', '*']))).length + 2 = T.length + 6 := by
      simp only [List.length_cons, List.length_append, List.length_nil]
    rw [hlen]
    show ∀ c ∈ '*' :: ('[' :: ((T ++ (']' :: ('*' :: rest))).take (T.length + 4))), c ≠ '-'
    have hX : (T ++ (']' :: ('*' :: rest))).take (T.length + 4) =
        T ++ (']' :: ('*' :: rest.take 2)) := by
      rw [List.take_append]
      rfl
    rw [hX]
    intro c hc
    simp only [List.mem_cons, List.mem_append] at hc
    rcases hc with rfl | rfl | hc | rfl | rfl | hc
    · decide
    · decide
    · exact alnumSpace_ne (hTall c hc) (by decide)
    · decide
    · decide
    · rcases hrest with rfl | ⟨r', rfl, hr⟩
      · simp at hc
      · rw [show ('\n' :: r').take 2 = '\n' :: r'.take 1 from rfl] at hc
        rcases List.mem_cons.mp hc with rfl | hc
        · decide
        · cases r' with
          | nil => simp at hc
          | cons c0 r'' =>
            rw [show (c0 :: r'').take 1 = [c0] from rfl] at hc
            rcases List.mem_singleton.mp hc with rfl
            intro h
            apply hr
            rw [List.head?_cons, h]
  | succ k' =>
    rw [if_neg (Nat.succ_ne_zero k')]
    cases k' with
    | zero =>
      show ∀ c ∈ ['\n', '*'], c ≠ '-'
      decide
    | succ k'' =>
      show ∀ c ∈ ['\n', '\n'], c ≠ '-'
      decide

/-- The first match of `TITLE_REGEX` against a text in the source order of
the title pattern: group 1 captures the date phrase, group 2 the bracketed
title, and the whole banner-to-title span is consumed, leaving `rest`. -/
theorem rmatches_TITLE_head (D T rest : Str) (k : Nat)
    (hDall : ∀ c ∈ D, alnumSpace c = true)
    (hTall : ∀ c ∈ T, alnumSpace c = true)
    (hrest : rest = [] ∨ ∃ r' : Str, rest = '\n' :: r' ∧ r'.head? ≠ some '-') :
    (rmatches TITLE_REGEX (mkTitleText D k T rest) emptyGroups).head? =
      some (setG 2 T (setG 1 D emptyGroups), rest) := by
  have htext : mkTitleText D k T rest =
      '*' :: ('=' :: ('=' :: ('=' :: (' ' ::
        (D ++ (" - Daily Programmer ===*".toList ++ titleAfter T rest k)))))) := rfl
  rw [TITLE_REGEX, htext,
    rmatches_seq_eq_of_singleton (rmatches_chr_cons '*' _ _),
    rmatches_seq_eq_of_singleton (rmatches_chr_cons '=' _ _),
    rmatches_seq_eq_of_singleton (rmatches_chr_cons '=' _ _),
    rmatches_seq_eq_of_singleton (rmatches_chr_cons '=' _ _),
    rmatches_seq_eq_of_singleton
      (rmatches_cls_cons (show isSpaceChar ' ' = true by decide) _ _)]
  set after := titleAfter T rest k with hafterdef
  set s6 := D ++ (" - Daily Programmer ===*".toList ++ after) with hs6def
  rw [rmatches_seq_def, rmatches_group_starG_cls, flatMap_map]
  have hDdot : ∀ c ∈ D, isDot c = true := fun c hc => alnumSpace_isDot (hDall c hc)
  have hlitdot : ∀ c ∈ " - Daily Programmer ===*".toList, isDot c = true := by decide
  have hlit24len : (" - Daily Programmer ===*".toList).length = 24 := by decide
  have htw : s6.takeWhile isDot =
      D ++ (" - Daily Programmer ===*".toList ++ (after.takeWhile isDot)) := by
    rw [hs6def, takeWhile_append_of_all _ hDdot, takeWhile_append_of_all _ hlitdot]
  have hm : (s6.takeWhile isDot).length =
      D.length + (24 + (after.takeWhile isDot).length) := by
    rw [htw]
    simp only [List.length_append, hlit24len]
  refine head?_flatMap_range _ ((s6.takeWhile isDot).length - D.length) (by omega) ?_ ?_
  · intro j hj
    by_contra hne
    obtain ⟨q, hq⟩ := (ne_nil_iff_exists_mem _).mp hne
    obtain ⟨c0, s2', heq, -⟩ := mem_seq_cls_chr_start hq
    have heq' : s6.drop ((s6.takeWhile isDot).length - j) = c0 :: ('-' :: s2') := heq
    have hnlb : D.length + 1 ≤ (s6.takeWhile isDot).length - j := by omega
    have hnub : (s6.takeWhile isDot).length - j ≤ (s6.takeWhile isDot).length :=
      Nat.sub_le _ _
    obtain ⟨n, hn⟩ : ∃ n, (s6.takeWhile isDot).length - j = n := ⟨_, rfl⟩
    rw [hn] at heq' hnlb hnub
    have hnub' : n ≤ D.length + (24 + (after.takeWhile isDot).length) := by
      rw [← hm]
      exact hnub
    have h1 : ((s6.drop n)[1]?) = some '-' := by
      rw [heq']
      simp
    rw [List.getElem?_drop] at h1
    rw [hs6def, List.getElem?_append_right (by omega)] at h1
    by_cases hi : n + 1 - D.length < 24
    · rw [List.getElem?_append_left (by rw [hlit24len]; omega)] at h1
      have hno : ∀ i' < 24, 2 ≤ i' →
          " - Daily Programmer ===*".toList[i']? ≠ some '-' := by decide
      exact hno _ hi (by omega) h1
    · rw [List.getElem?_append_right (by rw [hlit24len]; omega)] at h1
      have hlt : n + 1 - D.length -
          (" - Daily Programmer ===*".toList).length <
          (after.takeWhile isDot).length + 2 := by
        rw [hlit24len]
        omega
      have hsome : (after.take ((after.takeWhile isDot).length + 2))[n + 1 -
          D.length - (" - Daily Programmer ===*".toList).length]? = some '-' := by
        rw [List.getElem?_take, if_pos hlt]
        exact h1
      exact title_window T rest k hTall hrest '-' (List.getElem?_mem hsome) rfl
  · simp only [Nat.sub_sub_self (show D.length ≤ (s6.takeWhile isDot).length from by omega)]
    rw [hs6def, List.drop_left, List.take_left]
    have hsplit : " - Daily Programmer ===*".toList ++ after =
        ' ' :: ('-' :: (' ' :: ("Daily".toList ++ (' ' :: ("Programmer".toList ++
          (' ' :: ("===*".toList ++ after))))))) := rfl
    rw [hsplit,
      rmatches_seq_eq_of_singleton
        (rmatches_cls_cons (show isSpaceChar ' ' = true by decide) _ _),
      rmatches_seq_eq_of_singleton (rmatches_chr_cons '-' _ _),
      rmatches_seq_eq_of_singleton
        (rmatches_cls_cons (show isSpaceChar ' ' = true by decide) _ _),
      rmatches_seq_eq_of_singleton (rmatches_strL_append "Daily".toList _ _),
      rmatches_seq_eq_of_singleton
        (rmatches_cls_cons (show isSpaceChar ' ' = true by decide) _ _),
      rmatches_seq_eq_of_singleton (rmatches_strL_append "Programmer".toList _ _),
      rmatches_seq_eq_of_singleton
        (rmatches_cls_cons (show isSpaceChar ' ' = true by decide) _ _),
      rmatches_seq_eq_of_singleton (rmatches_strL_append "===*".toList _ _)]
    rw [rmatches_seq_def, chr, rmatches_starL_cls, flatMap_map]
    have htwn2 : ("*[".toList ++ (T ++ ("]*".toList ++ rest))).takeWhile
        (fun d => d == '\n') = [] := by
      show List.takeWhile _ ('*' :: _) = []
      rw [List.takeWhile_cons, if_neg (by decide)]
    have htwn : after.takeWhile (fun d => d == '\n') = List.replicate k '\n' := by
      rw [hafterdef]
      show (List.replicate k '\n' ++ ("*[".toList ++ (T ++ ("]*".toList ++
        rest)))).takeWhile (fun d => d == '\n') = _
      rw [takeWhile_append_of_all _
          (fun c hc => by rw [List.eq_of_mem_replicate hc]; decide),
        htwn2, List.append_nil]
    rw [htwn, List.length_replicate]
    refine head?_flatMap_range _ k (Nat.lt_succ_self k) ?_ ?_
    · intro j hj
      have hd : after.drop j = '\n' :: (List.replicate (k - j - 1) '\n' ++
          ("*[".toList ++ (T ++ ("]*".toList ++ rest)))) := by
        rw [hafterdef]
        show (List.replicate k '\n' ++ ("*[".toList ++ (T ++ ("]*".toList ++
          rest)))).drop j = _
        rw [drop_replicate_append j k (by omega),
          show k - j = (k - j - 1) + 1 from by omega]
        rfl
      rw [hd]
      exact rmatches_seq_nil (rmatches_chr_ne (by decide) _ _)
    · have hdk : after.drop k = "*[".toList ++ (T ++ ("]*".toList ++ rest)) := by
        rw [hafterdef]
        show (List.replicate k '\n' ++ ("*[".toList ++ (T ++ ("]*".toList ++
          rest)))).drop k = _
        rw [drop_replicate_append k k (Nat.le_refl k), Nat.sub_self]
        rfl
      rw [hdk]
      have hsplit2 : "*[".toList ++ (T ++ ("]*".toList ++ rest)) =
          '*' :: ('[' :: (T ++ (']' :: ('*' :: rest)))) := rfl
      rw [hsplit2,
        rmatches_seq_eq_of_singleton (rmatches_chr_cons '*' _ _),
        rmatches_seq_eq_of_singleton (rmatches_chr_cons '[' _ _),
        rmatches_seq_def, rmatches_group_starG_cls, flatMap_map]
      have htw2 : (T ++ (']' :: ('*' :: rest))).takeWhile isDot =
          T ++ (']' :: ('*' :: [])) := by
        rw [takeWhile_append_of_all _ (fun c hc => alnumSpace_isDot (hTall c hc)),
          List.takeWhile_cons, if_pos (by decide), List.takeWhile_cons,
          if_pos (by decide), rest_dotrun hrest]
      have hM2 : ((T ++ (']' :: ('*' :: rest))).takeWhile isDot).length =
          T.length + 2 := by
        rw [htw2]
        simp [List.length_append]
      simp only [hM2]
      refine head?_flatMap_range _ 2 (by omega) ?_ ?_
      · intro j hj
        interval_cases j
        · rw [show T.length + 2 - 0 = T.length + 2 from rfl, List.drop_append,
            show ((']' : Char) :: ('*' :: rest)).drop 2 = rest from rfl]
          rcases hrest with rfl | ⟨r', rfl, -⟩
          · exact rmatches_seq_nil rfl
          · exact rmatches_seq_nil (rmatches_chr_ne (by decide) _ _)
        · rw [show T.length + 2 - 1 = T.length + 1 from rfl, List.drop_append,
            show ((']' : Char) :: ('*' :: rest)).drop 1 = '*' :: rest from rfl]
          exact rmatches_seq_nil (rmatches_chr_ne (by decide) _ _)
      · rw [show T.length + 2 - 2 = T.length from rfl, List.take_left, List.drop_left,
          rmatches_seq_eq_of_singleton (rmatches_chr_cons ']' _ _), rmatches_chr_cons]
        rfl

/-! ## The code-block substitution -/

theorem mem_CODE_prefix {s : Str} {q : Groups × Str}
    (hq : q ∈ rmatches CODE_BLOCS_REGEX s emptyGroups) :
    ([btick, btick, btick]).isPrefixOf s = true := by
  rw [CODE_BLOCS_REGEX] at hq
  obtain ⟨p1, hp1, -⟩ := mem_rmatches_seq.mp hq
  obtain ⟨pi, hpi, -⟩ := mem_rmatches_group.mp hp1
  rw [rmatches_strL] at hpi
  split at hpi
  case isTrue hp => exact hp
  case isFalse => simp at hpi

theorem rmatches_CODE_consumed {s : Str} {g' : Groups} {rest' : Str}
    (hq : (g', rest') ∈ rmatches CODE_BLOCS_REGEX s emptyGroups) :
    rest'.length < s.length := by
  rw [CODE_BLOCS_REGEX] at hq
  obtain ⟨p1, hp1, hq1⟩ := mem_rmatches_seq.mp hq
  obtain ⟨pi, hpi, hp1eq⟩ := mem_rmatches_group.mp hp1
  rw [rmatches_strL] at hpi
  split at hpi
  case isFalse => simp at hpi
  case isTrue hp =>
    simp only [List.mem_singleton] at hpi
    subst hpi
    subst hp1eq
    have hsuf : rest'.length ≤ (s.drop ([btick, btick, btick] : Str).length).length := by
      have := (rmatches_suffix _ _ _ _ hq1).length_le
      simpa using this
    have hlen : 3 ≤ s.length := by
      have := (List.isPrefixOf_iff_prefix.mp hp).length_le
      simpa using this
    simp only [List.length_drop] at hsuf
    have h3 : ([btick, btick, btick] : Str).length = 3 := by simp
    rw [h3] at hsuf
    omega

theorem rmatches_CODE_head (X b : Str) (hX : ∀ c ∈ X, c ≠ btick) :
    (rmatches CODE_BLOCS_REGEX
        ([btick, btick, btick] ++ (X ++ ([btick, btick, btick] ++ b)))
        emptyGroups).head? =
      some (⟨some [btick, btick, btick], some X, some [btick, btick, btick]⟩, b) := by
  have hG1 : rmatches (.group 1 (strL [btick, btick, btick]))
      ([btick, btick, btick] ++ (X ++ ([btick, btick, btick] ++ b))) emptyGroups =
      [(setG 1 [btick, btick, btick] emptyGroups,
        X ++ ([btick, btick, btick] ++ b))] := by
    show (rmatches (strL [btick, btick, btick])
        ([btick, btick, btick] ++ (X ++ ([btick, btick, btick] ++ b))) emptyGroups).map _ = _
    rw [rmatches_strL_append]
    simp only [List.map_cons, List.map_nil]
    have hl : (([btick, btick, btick] : Str) ++ (X ++ ([btick, btick, btick] ++ b))).length -
        (X ++ ([btick, btick, btick] ++ b)).length = ([btick, btick, btick] : Str).length := by
      simp only [List.length_append]
      omega
    rw [hl, List.take_left]
  rw [CODE_BLOCS_REGEX, rmatches_seq_eq_of_singleton hG1]
  set gA := setG 1 [btick, btick, btick] emptyGroups with hgA
  set R1 : Str := X ++ ([btick, btick, btick] ++ b) with hR1
  show ((rmatches (.group 2 (.starL (.seq (.starG (.cls (fun c => c != btick)))
      (.starG (chr '\n'))))) R1 gA).flatMap
      (fun q => rmatches (.group 3 (strL [btick, btick, btick])) q.2 q.1)).head? = _
  have hunwrap : rmatches (.group 2 (.starL (.seq (.starG (.cls (fun c => c != btick)))
      (.starG (chr '\n'))))) R1 gA =
      (rmatches (.starL (.seq (.starG (.cls (fun c => c != btick)))
        (.starG (chr '\n')))) R1 gA).map
        (fun q => (setG 2 (R1.take (R1.length - q.2.length)) q.1, q.2)) := rfl
  rw [hunwrap, flatMap_map]
  set H : Groups × Str → List (Groups × Str) := fun q =>
    rmatches (.group 3 (strL [btick, btick, btick])) q.2
      (setG 2 (R1.take (R1.length - q.2.length)) q.1) with hH
  have hHfence : ∀ g : Groups, H (g, [btick, btick, btick] ++ b) =
      [(setG 3 [btick, btick, btick]
          (setG 2 (R1.take (R1.length - ([btick, btick, btick] ++ b).length)) g), b)] := by
    intro g
    rw [hH]
    show (rmatches (strL [btick, btick, btick]) ([btick, btick, btick] ++ b) _).map _ = _
    rw [rmatches_strL_append]
    simp only [List.map_cons, List.map_nil]
    have hl : (([btick, btick, btick] : Str) ++ b).length - b.length =
        ([btick, btick, btick] : Str).length := by
      simp only [List.length_append]
      omega
    rw [hl, List.take_left]
  obtain ⟨n, hn⟩ : ∃ n, R1.length = n + 1 := by
    refine ⟨R1.length - 1, ?_⟩
    rw [hR1]
    simp only [List.length_append, List.length_cons]
    omega
  have hLdef : rmatches (.starL (.seq (.starG (.cls (fun c => c != btick)))
      (.starG (chr '\n')))) R1 gA =
      (gA, R1) :: ((rmatches (.seq (.starG (.cls (fun c => c != btick)))
          (.starG (chr '\n'))) R1 gA).filter
          (fun q => decide (q.2.length < R1.length))).flatMap
        (fun q => matchStar (fun s' g' => rmatches (.seq (.starG (.cls (fun c => c != btick)))
          (.starG (chr '\n'))) s' g') n false q.2 q.1) := by
    show matchStar _ R1.length false R1 gA = _
    rw [hn]
    simp only [matchStar, cond_false]
    rw [← hn]
  rw [hLdef]
  cases hXc : X with
  | nil =>
    have hR1b : R1 = [btick, btick, btick] ++ b := by rw [hR1, hXc]; rfl
    refine head?_flatMap_cons_some ?_
    rw [hR1b, hHfence gA]
    have htake0 : (R1.take (R1.length - ([btick, btick, btick] ++ b).length)) = [] := by
      rw [hR1b]
      simp
    rw [htake0]
    rw [hgA]
    simp only [List.head?_cons, Option.some_inj]
    constructor
  | cons c X' =>
    have hcne : c ≠ btick := hX c (by rw [hXc]; simp)
    have hHfail : H (gA, R1) = [] := by
      rw [hH]
      show (rmatches (strL [btick, btick, btick]) R1 _).map _ = _
      rw [rmatches_strL]
      have hpre : ([btick, btick, btick] : Str).isPrefixOf R1 = false := by
        rw [hR1, hXc]
        show ([btick, btick, btick] : Str).isPrefixOf (c :: (X' ++ _)) = false
        simp only [List.isPrefixOf, Bool.and_eq_false_iff]
        left
        exact beq_eq_false_iff_ne.mpr (fun h => hcne h.symm)
      rw [if_neg (by rw [hpre]; exact Bool.false_ne_true)]
      rfl
    rw [head?_flatMap_cons_nil hHfail, List.flatMap_assoc]
    have hbodyhead : (rmatches (.seq (.starG (.cls (fun c => c != btick)))
        (.starG (chr '\n'))) R1 gA).head? = some (gA, [btick, btick, btick] ++ b) := by
      have hallX : ∀ d ∈ X, (d != btick) = true := by
        intro d hd
        simpa using hX d hd
      have hstar1 : rmatches (.starG (.cls (fun c => c != btick))) R1 gA =
          (List.range (X.length + 1)).map
            (fun j => (gA, R1.drop (X.length - j))) := by
        rw [rmatches_starG_cls]
        have htw : (R1.takeWhile (fun c => c != btick)).length = X.length := by
          rw [hR1, takeWhile_append_of_all _ hallX]
          have : (([btick, btick, btick] ++ b : Str)).takeWhile (fun c => c != btick) = [] := by
            show List.takeWhile _ (btick :: _) = []
            rw [List.takeWhile_cons, if_neg (by simp)]
          rw [this]
          simp
        rw [htw]
      show ((rmatches (.starG (.cls (fun c => c != btick))) R1 gA).flatMap
        (fun q => rmatches (.starG (chr '\n')) q.2 q.1)).head? = _
      rw [hstar1, flatMap_map, List.range_succ_eq_map, List.flatMap_cons]
      have hd0 : R1.drop (X.length - 0) = [btick, btick, btick] ++ b := by
        rw [hR1, Nat.sub_zero, List.drop_left]
      rw [hd0]
      have hnl : rmatches (.starG (chr '\n')) ([btick, btick, btick] ++ b) gA =
          [(gA, [btick, btick, btick] ++ b)] := by
        rw [chr, rmatches_starG_cls]
        have : (([btick, btick, btick] ++ b : Str)).takeWhile (fun d => d == '\n') = [] := by
          show List.takeWhile _ (btick :: _) = []
          rw [List.takeWhile_cons, if_neg (by simp [btick])]
        rw [this]
        simp
      rw [hnl]
      rfl
    cases hbl : rmatches (.seq (.starG (.cls (fun c => c != btick)))
        (.starG (chr '\n'))) R1 gA with
    | nil => rw [hbl] at hbodyhead; cases hbodyhead
    | cons q1 tl =>
      rw [hbl] at hbodyhead
      simp only [List.head?_cons, Option.some_inj] at hbodyhead
      subst hbodyhead
      have hflt : ((gA, [btick, btick, btick] ++ b) :: tl).filter
          (fun q => decide (q.2.length < R1.length)) =
          (gA, [btick, btick, btick] ++ b) ::
            tl.filter (fun q => decide (q.2.length < R1.length)) := by
        rw [List.filter_cons]
        rw [if_pos ?_]
        show decide (([btick, btick, btick] ++ b : Str).length < R1.length) = true
        rw [decide_eq_true_iff]
        rw [hR1, hXc]
        simp only [List.length_append, List.length_cons]
        omega
      rw [hflt, List.flatMap_cons]
      obtain ⟨n2, hn2⟩ : ∃ n2, n = n2 + 1 := by
        refine ⟨n - 1, ?_⟩
        have hRlen : R1.length = X.length + (3 + b.length) := by
          rw [hR1]
          simp only [List.length_append, List.length_cons, List.length_nil]
        rw [hXc] at hRlen
        simp only [List.length_cons] at hRlen
        omega
      have hrec : matchStar (fun s' g' => rmatches (.seq (.starG (.cls (fun c => c != btick)))
          (.starG (chr '\n'))) s' g') n false ([btick, btick, btick] ++ b) gA =
          (gA, [btick, btick, btick] ++ b) ::
            ((rmatches (.seq (.starG (.cls (fun c => c != btick)))
              (.starG (chr '\n'))) ([btick, btick, btick] ++ b) gA).filter
              (fun q => decide (q.2.length < ([btick, btick, btick] ++ b : Str).length))).flatMap
            (fun q => matchStar (fun s' g' => rmatches (.seq (.starG (.cls (fun c => c != btick)))
              (.starG (chr '\n'))) s' g') n2 false q.2 q.1) := by
        rw [hn2]
        simp only [matchStar, cond_false]
      have hheadK : ((matchStar (fun s' g' => rmatches (.seq (.starG (.cls (fun c => c != btick)))
          (.starG (chr '\n'))) s' g') n false ([btick, btick, btick] ++ b) gA).flatMap H).head? =
          some (⟨some [btick, btick, btick], some X, some [btick, btick, btick]⟩, b) := by
        rw [hrec]
        refine head?_flatMap_cons_some ?_
        rw [hHfence gA]
        have htakeX : (R1.take (R1.length - ([btick, btick, btick] ++ b).length)) = X := by
          have : R1.length - ([btick, btick, btick] ++ b : Str).length = X.length := by
            rw [hR1]
            simp only [List.length_append]
            omega
          rw [this, hR1, List.take_left]
        rw [htakeX, hgA]
        simp only [List.head?_cons, Option.some_inj]
        constructor
      rw [hXc] at hheadK
      exact head?_append_of_head hheadK

/-- Claim C4, counterexample to idempotence: one application of the
code-block substitution to an inline fence produces the three-line form,
but a second application inserts a further newline on each side of the
body (the lazy group re-matches the now-multiline body), so the step is
not idempotent. -/
theorem C4_cex :
    sub CODE_BLOCS_REGEX codeTmpl "```a```".toList = "```\na\n```".toList ∧
    sub CODE_BLOCS_REGEX codeTmpl (sub CODE_BLOCS_REGEX codeTmpl "```a```".toList) ≠
      sub CODE_BLOCS_REGEX codeTmpl "```a```".toList := by
  constructor
  · decide
  · decide

/-- Claim C4, amended: for every inline fenced block with a backtick-free
body `X` (in a context whose preceding text contains no backtick), the
substitution outputs the opening fence, a newline, `X`, a newline, and
the closing fence, in that order, and continues over the remaining text;
the idempotence clause of the original claim is dropped (see the
counterexample: a second application inserts one further newline on each
side of the body). -/
theorem C4_amended :
    ∀ a X b : Str, (∀ c ∈ a, c ≠ btick) → (∀ c ∈ X, c ≠ btick) →
      sub CODE_BLOCS_REGEX codeTmpl
          (a ++ ([btick, btick, btick] ++ (X ++ ([btick, btick, btick] ++ b)))) =
        a ++ ([btick, btick, btick] ++ ('\n' :: (X ++ ('\n' :: ([btick, btick, btick] ++
          sub CODE_BLOCS_REGEX codeTmpl b))))) := by
  intro a X b ha hX
  have hhead : ∀ c t, rmatches CODE_BLOCS_REGEX (c :: t) emptyGroups ≠ [] →
      (c == btick) = true := by
    intro c t hne
    obtain ⟨q, hq⟩ := (ne_nil_iff_exists_mem _).mp hne
    have := mem_CODE_prefix hq
    simp only [List.isPrefixOf, Bool.and_eq_true] at this
    rw [beq_iff_eq] at this ⊢
    exact this.1.symm
  have hp : ∀ c ∈ a, (c == btick) = false :=
    fun c hc => beq_eq_false_iff_ne.mpr (ha c hc)
  rw [sub_append_of_nostart hhead
    (fun s g' r' hq => rmatches_CODE_consumed hq) a _ hp]
  have hfm := findMatch_of_head (rmatches_CODE_head X b hX)
  have hmatne : (([btick, btick, btick] ++ (X ++ ([btick, btick, btick] ++ b))) : Str).take
      ((([btick, btick, btick] ++ (X ++ ([btick, btick, btick] ++ b))) : Str).length -
        b.length) ≠ [] := by
    intro hmat
    have := congrArg List.length hmat
    simp only [List.length_take, List.length_append, List.length_cons,
      List.length_nil] at this
    omega
  rw [sub_of_findMatch_some hfm hmatne]
  simp [codeTmpl, List.append_assoc]

/-- Witness for C4 at a concrete fenced block in context. -/
theorem C4_witness :
    sub CODE_BLOCS_REGEX codeTmpl
        ("x".toList ++ ([btick, btick, btick] ++
          ("a".toList ++ ([btick, btick, btick] ++ "y".toList)))) =
      "x".toList ++ ([btick, btick, btick] ++ ('\n' :: ("a".toList ++ ('\n' ::
        ([btick, btick, btick] ++ sub CODE_BLOCS_REGEX codeTmpl "y".toList))))) :=
  C4_amended "x".toList "a".toList "y".toList (by decide) (by decide)

/-- Claim C5, counterexample: with nested brackets, the inner bracketed
image URL is not rewritten to its own reference — the lazy group of the
leftmost match swallows it, so the input contains the bracketed URL
`<HOST b>` but the output contains no reference `![Illustration](HOST b)`. -/
theorem C5_cex :
    containsSub ('<' :: (imagesHost ++ "b>".toList))
        ('<' :: (imagesHost ++ ("a <".toList ++ (imagesHost ++ "b>".toList)))) =
      true ∧
    sub IMAGES_REGEX imageTmpl
        ('<' :: (imagesHost ++ ("a <".toList ++ (imagesHost ++ "b>".toList)))) =
      "![Illustration](".toList ++ (imagesHost ++ ("a <".toList ++
        (imagesHost ++ "b".toList))) ++ ")\n".toList ∧
    containsSub ("![Illustration](".toList ++ (imagesHost ++ "b)".toList))
        (sub IMAGES_REGEX imageTmpl
          ('<' :: (imagesHost ++ ("a <".toList ++ (imagesHost ++ "b>".toList))))) =
      false := by
  refine ⟨by decide, by decide, by decide⟩

/-- Claim C5, amended: scanning leftmost-first, a bracketed image-host URL
`<HOST u>` (with `u` free of `>` and newline) before which no image-host
occurrence starts is rewritten to `![Illustration](HOST u)` followed by a
newline, and the substitution continues over the remaining text; a text in
which no image-host occurrence starts at any position — in particular one
whose bracketed URLs are all under other prefixes — is left unchanged.
The original claim's unrestricted "every occurrence" is dropped: see the
counterexample, where an occurrence nested inside an earlier match's
brackets is swallowed rather than rewritten. -/
theorem C5_amended :
    (∀ a u b : Str,
      (∀ i, i < a.length →
        ('<' :: imagesHost).isPrefixOf
          ((a ++ '<' :: (imagesHost ++ (u ++ '>' :: b))).drop i) = false) →
      (∀ c ∈ u, c ≠ '>' ∧ c ≠ '\n') →
      sub IMAGES_REGEX imageTmpl (a ++ '<' :: (imagesHost ++ (u ++ '>' :: b))) =
        a ++ "![Illustration](".toList ++ (imagesHost ++ u) ++ ")\n".toList ++
          sub IMAGES_REGEX imageTmpl b) ∧
    (∀ t : Str, (∀ i, i < t.length →
        ('<' :: imagesHost).isPrefixOf (t.drop i) = false) →
      sub IMAGES_REGEX imageTmpl t = t) := by
  constructor
  · intro a u b ha hu
    have hp : ∀ i, i < a.length →
        rmatches IMAGES_REGEX
          ((a ++ '<' :: (imagesHost ++ (u ++ '>' :: b))).drop i) emptyGroups = [] := by
      intro i hi
      by_contra hne
      obtain ⟨q, hq⟩ := (ne_nil_iff_exists_mem _).mp hne
      have hpref := mem_IMAGES_prefix hq
      rw [ha i hi] at hpref
      exact Bool.false_ne_true hpref
    rw [sub_append_of_nomatch
      (fun s g' rest' hq => rmatches_IMAGES_consumed hq) a _ hp]
    have hfm := findMatch_of_head (rmatches_IMAGES_head u b hu)
    have hmatne : ('<' :: (imagesHost ++ (u ++ '>' :: b))).take
        (('<' :: (imagesHost ++ (u ++ '>' :: b))).length - b.length) ≠ [] := by
      intro hmat
      have := congrArg List.length hmat
      simp only [List.length_take, List.length_cons, List.length_append,
        List.length_nil] at this
      omega
    rw [sub_of_findMatch_some hfm hmatne]
    simp [imageTmpl, setG, emptyGroups, List.append_assoc]
  · intro t h
    apply sub_eq_self_of_nomatch
    intro i
    by_contra hne
    obtain ⟨q, hq⟩ := (ne_nil_iff_exists_mem _).mp hne
    have hpref := mem_IMAGES_prefix hq
    by_cases hi : i < t.length
    · rw [h i hi] at hpref
      exact Bool.false_ne_true hpref
    · have hd : t.drop i = [] := List.drop_eq_nil_of_le (by omega)
      rw [hd] at hpref
      simp [List.isPrefixOf] at hpref

/-- Witness for C5: a bracketed foreign-prefix URL (containing `<`)
precedes the image URL and is left untouched while the image URL is
rewritten; and a text with only a foreign URL is unchanged. -/
theorem C5_witness :
    sub IMAGES_REGEX imageTmpl
        ("<https://example.com/x> ".toList ++ '<' :: (imagesHost ++
          ("p".toList ++ '>' :: " e".toList))) =
      "<https://example.com/x> ".toList ++ "![Illustration](".toList ++
        (imagesHost ++ "p".toList) ++ ")\n".toList ++
        sub IMAGES_REGEX imageTmpl " e".toList ∧
    sub IMAGES_REGEX imageTmpl "<https://example.com/x>".toList =
      "<https://example.com/x>".toList :=
  ⟨C5_amended.1 "<https://example.com/x> ".toList "p".toList " e".toList
    (by decide) (by decide),
   C5_amended.2 "<https://example.com/x>".toList (by decide)⟩

theorem regexSearch_CHALLENGE_iff (t : Str) :
    regexSearch CHALLENGE_REGEX t = true ↔ specChallenge t := by
  rw [regexSearch, findMatch_isSome_iff]
  constructor
  · rintro ⟨p, q, rfl, hne⟩
    obtain ⟨e1, s1, w, hy, t2, s2, e2, z, rfl, hA, hB, hC, hD, hE, hF, hG, hH, hI, hJ⟩ :=
      (rmatches_CHALLENGE_iff q).mp ((ne_nil_iff_exists_mem _).mp hne)
    exact ⟨p, e1, s1, w, hy, t2, s2, e2, z, rfl, hA, hB, hC, hD, hE, hF, hG, hH, hI, hJ⟩
  · rintro ⟨pre, e1, s1, w, hy, t2, s2, e2, post, rfl, hA, hB, hC, hD, hE, hF, hG, hH, hI, hJ⟩
    refine ⟨pre, _, rfl, (ne_nil_iff_exists_mem _).mpr ?_⟩
    exact (rmatches_CHALLENGE_iff _).mpr
      ⟨e1, s1, w, hy, t2, s2, e2, post, rfl, hA, hB, hC, hD, hE, hF, hG, hH, hI, hJ⟩

/-! ## Aggregation lemmas -/

theorem foldl_format_append (l : List Message) :
    ∀ acc : Str,
      l.foldl (fun acc m =>
        match format_messages m with
        | .ok text => acc ++ text ++ challenges_separator
        | .error _ => acc) acc =
      acc ++ ((l.filterMap (fun m => (format_messages m).toOption)).map
        (fun doc => doc ++ challenges_separator)).flatten := by
  induction l with
  | nil => intro acc; simp
  | cons m l ih =>
    intro acc
    cases hfm : format_messages m with
    | ok t =>
      simp only [List.foldl_cons, hfm, List.filterMap_cons, Except.toOption, ih,
        List.map_cons, List.flatten_cons]
      simp [List.append_assoc]
    | error e =>
      simp only [List.foldl_cons, hfm, List.filterMap_cons, Except.toOption, ih]

theorem historyBlob_eq (messages : List Message) :
    historyBlob messages =
      ((messages.reverse.filterMap (fun m => (format_messages m).toOption)).map
        (fun doc => doc ++ challenges_separator)).flatten := by
  rw [historyBlob, foldl_format_append]
  simp

/-- Claim C3: aggregation over a batch (arriving newest-first) yields
exactly the transformed documents of the matching messages, in reversed
(oldest-first) order, each followed by the fixed separator — that is, the
documents joined by the separator with one trailing separator — and
non-matching messages are skipped. -/
theorem C3_aggregation (messages : List Message) :
    historyBlob messages =
      ((messages.reverse.filterMap (fun m => (format_messages m).toOption)).map
        (fun doc => doc ++ challenges_separator)).flatten :=
  historyBlob_eq messages

/-- Claim C2, counterexample to the pattern description as stated: the
text `"== ab =="` contains no three-equals banner `=== <words> ===` at
all (no `===` substring), yet the transformer accepts it (no
`MessageTypeException`), because `CHALLENGE_REGEX` also accepts two
equals signs on each side (`===?` / `=?==`). -/
theorem C2_cex :
    containsSub "===".toList "== ab ==".toList = false ∧
    format_messages ⟨some "== ab ==".toList, []⟩ = .ok "## == ab ==".toList := by
  constructor
  · decide
  · rfl

/-- Claim C2, amended to the two-or-three-equals pattern the regex
accepts: the transformer raises `MessageTypeException` (carrying the
original message) exactly on messages whose text is absent or contains no
substring of the form two-or-three `=`, whitespace, words, an optional
hyphenated word/space qualifier, whitespace, two-or-three `=`; and the
aggregator skips such a message with no other observable effect. -/
theorem C2_amended (m : Message) :
    ((∃ e, format_messages m = .error e) ↔
      (m.text = none ∨ ∃ t, m.text = some t ∧ ¬ specChallenge t)) ∧
    (∀ e, format_messages m = .error e → e.message = m) ∧
    (∀ (l₁ l₂ : List Message) (fs : FS), (∃ e, format_messages m = .error e) →
      parse_channel_history (l₁ ++ m :: l₂) fs =
        parse_channel_history (l₁ ++ l₂) fs) := by
  refine ⟨?_, ?_, ?_⟩
  · cases hm : m.text with
    | none =>
      constructor
      · intro _
        exact Or.inl rfl
      · intro _
        exact ⟨⟨"The message doesn't match the pattern".toList, m⟩,
          by simp only [format_messages, hm]⟩
    | some t =>
      by_cases hs : regexSearch CHALLENGE_REGEX t = true
      · constructor
        · rintro ⟨e, he⟩
          simp only [format_messages, hm, if_pos hs] at he
          exact Except.noConfusion he
        · rintro (hnone | ⟨t', ht', hnspec⟩)
          · exact Option.noConfusion hnone
          · injection ht' with ht''
            subst ht''
            exact absurd ((regexSearch_CHALLENGE_iff _).mp hs) hnspec
      · constructor
        · intro _
          exact Or.inr ⟨t, rfl, fun hspec => hs ((regexSearch_CHALLENGE_iff t).mpr hspec)⟩
        · intro _
          exact ⟨⟨"The message doesn't match the pattern".toList, m⟩,
            by simp only [format_messages, hm, if_neg hs]⟩
  · intro e he
    cases hm : m.text with
    | none =>
      simp only [format_messages, hm] at he
      injection he with he'
      rw [← he']
    | some t =>
      by_cases hs : regexSearch CHALLENGE_REGEX t = true
      · simp only [format_messages, hm, if_pos hs] at he
        exact Except.noConfusion he
      · simp only [format_messages, hm, if_neg hs] at he
        injection he with he'
        rw [← he']
  · rintro l₁ l₂ fs ⟨e, he⟩
    have hopt : (format_messages m).toOption = none := by
      rw [he]
      rfl
    have hblob : historyBlob (l₁ ++ m :: l₂) = historyBlob (l₁ ++ l₂) := by
      rw [historyBlob_eq, historyBlob_eq]
      congr 1
      congr 1
      rw [List.reverse_append, List.reverse_append, List.reverse_cons,
        List.filterMap_append, List.filterMap_append, List.filterMap_append]
      simp [hopt]
    simp only [parse_channel_history, hblob]

/-- Witness for C2 at concrete messages: a text-less message raises, and
the aggregator drops it from a batch. -/
theorem C2_witness :
    (∃ e, format_messages ⟨none, []⟩ = .error e) ∧
    parse_channel_history ([] ++ (⟨none, []⟩ : Message) :: []) ⟨false, none⟩ =
      parse_channel_history ([] ++ []) ⟨false, none⟩ :=
  ⟨(C2_amended ⟨none, []⟩).1.mpr (Or.inl rfl),
   (C2_amended ⟨none, []⟩).2.2 [] [] ⟨false, none⟩
     ((C2_amended ⟨none, []⟩).1.mpr (Or.inl rfl))⟩

/-- Claim C6 (amended-free): an invalid mode is rejected before any
filesystem action and without publishing; a valid mode performs the write
and then triggers the publisher exactly once, after the write. -/
theorem C6_writer_modes (challenges : Str) (fs : FS) :
    (∀ mode : Char, mode ≠ 'a' → mode ≠ 'w' →
      write_history_to_file challenges mode fs =
        (fs, [], .error ⟨"Given mode isn't 'a' or 'w'!".toList⟩)) ∧
    (∀ mode : Char, mode = 'a' ∨ mode = 'w' →
      ∃ (pre : List Event) (fs' : FS),
        write_history_to_file challenges mode fs =
          (fs', pre ++ [.fileWrite mode challenges, .publish], .ok ()) ∧
        (∀ e ∈ pre, e = Event.mkdir)) := by
  constructor
  · intro mode h1 h2
    rw [write_history_to_file, if_pos ⟨h1, h2⟩]
  · intro mode hv
    have hguard : ¬(mode ≠ 'a' ∧ mode ≠ 'w') := by
      rcases hv with rfl | rfl
      · exact fun h => h.1 rfl
      · exact fun h => h.2 rfl
    rw [write_history_to_file, if_neg hguard]
    obtain ⟨d, c⟩ := fs
    cases d with
    | true =>
      exact ⟨[], ⟨true, some (if mode = 'w' then challenges else c.getD [] ++ challenges)⟩,
        by simp, by simp⟩
    | false =>
      refine ⟨[.mkdir],
        ⟨true, some (if mode = 'w' then challenges else c.getD [] ++ challenges)⟩,
        by simp, ?_⟩
      intro e he
      simpa using he

/-- Witness for C6 at a concrete invalid mode and a concrete valid mode. -/
theorem C6_witness :
    write_history_to_file "x".toList 'q' ⟨false, none⟩ =
      (⟨false, none⟩, [], .error ⟨"Given mode isn't 'a' or 'w'!".toList⟩) ∧
    (∃ (pre : List Event) (fs' : FS),
      write_history_to_file "x".toList 'a' ⟨false, none⟩ =
        (fs', pre ++ [.fileWrite 'a' "x".toList, .publish], .ok ()) ∧
      (∀ e ∈ pre, e = Event.mkdir)) :=
  ⟨(C6_writer_modes "x".toList ⟨false, none⟩).1 'q' (by decide) (by decide),
   (C6_writer_modes "x".toList ⟨false, none⟩).2 'a' (Or.inl rfl)⟩

/-- Claim C7: when no message of the batch matches, the aggregator
produces no output, and neither the writer nor the publisher runs: the
state is unchanged and the event trace is empty. -/
theorem C7_no_match_no_write (messages : List Message) (fs : FS)
    (h : ∀ m ∈ messages, ∃ e, format_messages m = .error e) :
    parse_channel_history messages fs = (fs, [], .ok ()) := by
  have hblob : historyBlob messages = [] := by
    rw [historyBlob_eq]
    have : messages.reverse.filterMap (fun m => (format_messages m).toOption) = [] := by
      rw [List.filterMap_eq_nil_iff]
      intro m hm
      obtain ⟨e, he⟩ := h m (List.mem_reverse.mp hm)
      rw [he]
      rfl
    rw [this]
    rfl
  rw [parse_channel_history]
  simp [hblob]

/-- Witness for C7: a batch of one text-less message. -/
theorem C7_witness :
    parse_channel_history [⟨none, []⟩] ⟨false, none⟩ = (⟨false, none⟩, [], .ok ()) :=
  C7_no_match_no_write [⟨none, []⟩] ⟨false, none⟩
    (fun m hm => by
      rcases List.mem_singleton.mp hm with rfl
      exact ⟨_, rfl⟩)

/-- Claim C8: the batch entry point always writes the aggregated blob in
overwrite mode `'w'`, while the single-message entry point writes the one
transformed document in append mode `'a'`, appending it verbatim (no
separator) to the existing content. -/
theorem C8_entry_modes :
    (∀ (messages : List Message) (fs : FS), historyBlob messages ≠ [] →
      parse_channel_history messages fs =
        write_history_to_file (historyBlob messages) 'w' fs) ∧
    (∀ (m : Message) (t : Str) (fs : FS), format_messages m = .ok t →
      parse_message m fs = write_history_to_file t 'a' fs ∧
        (write_history_to_file t 'a' fs).1.fileContent =
          some (fs.fileContent.getD [] ++ t)) := by
  constructor
  · intro messages fs hne
    rw [parse_channel_history, if_pos hne]
  · intro m t fs hfm
    constructor
    · rw [parse_message, hfm]
    · have hguard : ¬(('a' : Char) ≠ 'a' ∧ ('a' : Char) ≠ 'w') := fun h => h.1 rfl
      rw [write_history_to_file, if_neg hguard]
      cases hdir : fs.dirExists <;> simp [hdir]

/-- Witness for C8 at a concrete matching message. -/
theorem C8_witness :
    parse_channel_history [⟨some "== a ==".toList, []⟩] ⟨false, none⟩ =
      write_history_to_file (historyBlob [⟨some "== a ==".toList, []⟩]) 'w'
        ⟨false, none⟩ ∧
    (parse_message ⟨some "== a ==".toList, []⟩ ⟨true, some "old".toList⟩ =
      write_history_to_file "## == a ==".toList 'a' ⟨true, some "old".toList⟩ ∧
     (write_history_to_file "## == a ==".toList 'a' ⟨true, some "old".toList⟩).1.fileContent =
       some ("old".toList ++ "## == a ==".toList)) :=
  ⟨C8_entry_modes.1 [⟨some "== a ==".toList, []⟩] ⟨false, none⟩ (by decide),
   C8_entry_modes.2 ⟨some "== a ==".toList, []⟩ "## == a ==".toList
     ⟨true, some "old".toList⟩ (by rfl)⟩

/-- Claim C9: the writer itself accepts empty content: with a valid mode
it still ensures the directory exists, performs the (empty) write, and
triggers the publisher; the zero-length guard lives only in the batch
path. -/
theorem C9_writer_empty (fs : FS) (mode : Char) (h : mode = 'a' ∨ mode = 'w') :
    ∃ (evs : List Event) (content : Str),
      write_history_to_file [] mode fs =
        ({ dirExists := true, fileContent := some content }, evs, .ok ()) ∧
      Event.publish ∈ evs ∧ Event.fileWrite mode [] ∈ evs ∧
      (fs.dirExists = false → Event.mkdir ∈ evs) := by
  have hguard : ¬(mode ≠ 'a' ∧ mode ≠ 'w') := by
    rcases h with rfl | rfl
    · exact fun h => h.1 rfl
    · exact fun h => h.2 rfl
  rw [write_history_to_file, if_neg hguard]
  obtain ⟨d, c⟩ := fs
  cases d with
  | true =>
    refine ⟨[.fileWrite mode [], .publish],
      (if mode = 'w' then [] else c.getD []), by simp, by simp, by simp, by simp⟩
  | false =>
    refine ⟨[.mkdir, .fileWrite mode [], .publish],
      (if mode = 'w' then [] else c.getD []), by simp, by simp, by simp, by simp⟩

/-- Witness for C9: empty write in append mode on a fresh state. -/
theorem C9_witness :
    ∃ (evs : List Event) (content : Str),
      write_history_to_file [] 'a' ⟨false, none⟩ =
        ({ dirExists := true, fileContent := some content }, evs, .ok ()) ∧
      Event.publish ∈ evs ∧ Event.fileWrite 'a' [] ∈ evs ∧
      ((⟨false, none⟩ : FS).dirExists = false → Event.mkdir ∈ evs) :=
  C9_writer_empty ⟨false, none⟩ 'a' (Or.inl rfl)

/-- Claim C10: the transformer is a pure function of the `text` field:
two messages with equal text either produce the same output document or
both raise `MessageTypeException`. -/
theorem C10_deterministic (m1 m2 : Message) (h : m1.text = m2.text) :
    (∃ t, format_messages m1 = .ok t ∧ format_messages m2 = .ok t) ∨
    ((∃ e1, format_messages m1 = .error e1) ∧
     (∃ e2, format_messages m2 = .error e2)) := by
  cases hm2 : m2.text with
  | none =>
    have hm1 : m1.text = none := by rw [h, hm2]
    refine Or.inr
      ⟨⟨⟨"The message doesn't match the pattern".toList, m1⟩, ?_⟩,
       ⟨⟨"The message doesn't match the pattern".toList, m2⟩, ?_⟩⟩
    · simp only [format_messages, hm1]
    · simp only [format_messages, hm2]
  | some text =>
    have hm1 : m1.text = some text := by rw [h, hm2]
    by_cases hs : regexSearch CHALLENGE_REGEX text = true
    · refine Or.inl ⟨sub IMAGES_REGEX imageTmpl (sub CODE_BLOCS_REGEX codeTmpl
        ("## ".toList ++ sub TITLE_REGEX titleTmpl text)), ?_, ?_⟩
      · simp only [format_messages, hm1, if_pos hs]
      · simp only [format_messages, hm2, if_pos hs]
    · refine Or.inr
        ⟨⟨⟨"The message doesn't match the pattern".toList, m1⟩, ?_⟩,
         ⟨⟨"The message doesn't match the pattern".toList, m2⟩, ?_⟩⟩
      · simp only [format_messages, hm1, if_neg hs]
      · simp only [format_messages, hm2, if_neg hs]

/-- Claim C1, counterexample: a message whose text contains the title
sub-pattern but preceded by other text. The substitution keeps the
preceding text right after the added `## ` prefix, so the output does not
begin with `## ` immediately followed by the title and date. -/
theorem C1_cex :
    format_messages ⟨some "x*=== M - Daily Programmer ===*\n*[T]*".toList, []⟩ =
      .ok "## xT -- M".toList ∧
    ("## ".toList ++ "T -- M".toList).isPrefixOf "## xT -- M".toList = false := by
  constructor
  · rfl
  · decide

/-- Claim C1, amended: for a message whose text is the title pattern in
the source order — the date banner `*=== <date> - Daily Programmer ===*`,
`k` newlines, the bracketed title `*[<title>]*`, and a remainder that is
empty or a newline not followed by a hyphen, with the date phrase and the
title made of alphanumerics and spaces — the transformed output begins
with `## ` immediately followed by `<title> -- <date>`.  The original
claim's order-insensitivity (and its tolerance of preceding text) is
dropped: see the counterexample. -/
theorem C1_amended (D T rest : Str) (k : Nat) (ts : Str)
    (hDall : ∀ c ∈ D, alnumSpace c = true)
    (hTall : ∀ c ∈ T, alnumSpace c = true)
    (hrest : rest = [] ∨ ∃ r' : Str, rest = '\n' :: r' ∧ r'.head? ≠ some '-') :
    ∃ tail : Str,
      format_messages ⟨some (mkTitleText D k T rest), ts⟩ =
        .ok ("## ".toList ++ (T ++ (" -- ".toList ++ (D ++ tail)))) := by
  have hdecomp : mkTitleText D k T rest =
      ['*'] ++ (['=', '=', '='] ++ ([' '] ++ ((D ++ [' ']) ++ (['-'] ++
        (" Daily Programmer".toList ++ ([' '] ++ (['=', '=', '='] ++
          ('*' :: titleAfter T rest k)))))))) := by
    show '*' :: ('=' :: ('=' :: ('=' :: (' ' :: (D ++ (' ' :: ('-' ::
        (" Daily Programmer".toList ++ (' ' :: ('=' :: ('=' :: ('=' :: ('*' ::
          titleAfter T rest k))))))))))))) = _
    simp only [List.cons_append, List.nil_append, List.append_assoc]
  have hspec : specChallenge (mkTitleText D k T rest) := by
    refine ⟨['*'], ['=', '=', '='], [' '], D ++ [' '], ['-'],
      " Daily Programmer".toList, [' '], ['=', '=', '='],
      '*' :: titleAfter T rest k, hdecomp, Or.inr rfl, by decide, by decide,
      by simp, ?_, Or.inr rfl, by decide, by decide, by decide, Or.inr rfl⟩
    intro c hc
    rcases List.mem_append.mp hc with hc | hc
    · exact alnumSpace_isWordSpace (hDall c hc)
    · rcases List.mem_singleton.mp hc with rfl
      decide
  have hsearch : regexSearch CHALLENGE_REGEX (mkTitleText D k T rest) = true :=
    (regexSearch_CHALLENGE_iff _).mpr hspec
  have hfm := findMatch_of_head (rmatches_TITLE_head D T rest k hDall hTall hrest)
  have hlen5 : ("*=== ".toList).length = 5 := by decide
  have hlen24 : (" - Daily Programmer ===*".toList).length = 24 := by decide
  have hlen2a : ("*[".toList).length = 2 := by decide
  have hlen2b : ("]*".toList).length = 2 := by decide
  have hmatne : (mkTitleText D k T rest).take
      ((mkTitleText D k T rest).length - rest.length) ≠ [] := by
    intro h
    have hl := congrArg List.length h
    have hlen : (mkTitleText D k T rest).length =
        D.length + T.length + k + rest.length + 33 := by
      simp only [mkTitleText, List.length_append, List.length_replicate,
        hlen5, hlen24, hlen2a, hlen2b]
      omega
    simp only [List.length_take, List.length_nil] at hl
    omega
  have hsub1 : sub TITLE_REGEX titleTmpl (mkTitleText D k T rest) =
      T ++ (" -- ".toList ++ (D ++ sub TITLE_REGEX titleTmpl rest)) := by
    rw [sub_of_findMatch_some hfm hmatne]
    simp [titleTmpl, setG, emptyGroups, List.append_assoc]
  have hheadC : ∀ c t, rmatches CODE_BLOCS_REGEX (c :: t) emptyGroups ≠ [] →
      (c == btick) = true := by
    intro c t hne
    obtain ⟨q, hq⟩ := (ne_nil_iff_exists_mem _).mp hne
    have := mem_CODE_prefix hq
    simp only [List.isPrefixOf, Bool.and_eq_true] at this
    rw [beq_iff_eq] at this ⊢
    exact this.1.symm
  have hheadI : ∀ c t, rmatches IMAGES_REGEX (c :: t) emptyGroups ≠ [] →
      (c == '<') = true := by
    intro c t hne
    obtain ⟨q, hq⟩ := (ne_nil_iff_exists_mem _).mp hne
    have := mem_IMAGES_prefix hq
    simp only [List.isPrefixOf, Bool.and_eq_true] at this
    rw [beq_iff_eq] at this ⊢
    exact this.1.symm
  have hpre_nob : ∀ c ∈ "## ".toList ++ (T ++ (" -- ".toList ++ D)),
      (c == btick) = false := by
    intro c hc
    rcases List.mem_append.mp hc with hc | hc
    · exact (show ∀ c ∈ "## ".toList, (c == btick) = false by decide) c hc
    rcases List.mem_append.mp hc with hc | hc
    · exact beq_eq_false_iff_ne.mpr (alnumSpace_ne (hTall c hc) (by decide))
    rcases List.mem_append.mp hc with hc | hc
    · exact (show ∀ c ∈ " -- ".toList, (c == btick) = false by decide) c hc
    · exact beq_eq_false_iff_ne.mpr (alnumSpace_ne (hDall c hc) (by decide))
  have hpre_nolt : ∀ c ∈ "## ".toList ++ (T ++ (" -- ".toList ++ D)),
      (c == '<') = false := by
    intro c hc
    rcases List.mem_append.mp hc with hc | hc
    · exact (show ∀ c ∈ "## ".toList, (c == '<') = false by decide) c hc
    rcases List.mem_append.mp hc with hc | hc
    · exact beq_eq_false_iff_ne.mpr (alnumSpace_ne (hTall c hc) (by decide))
    rcases List.mem_append.mp hc with hc | hc
    · exact (show ∀ c ∈ " -- ".toList, (c == '<') = false by decide) c hc
    · exact beq_eq_false_iff_ne.mpr (alnumSpace_ne (hDall c hc) (by decide))
  refine ⟨sub IMAGES_REGEX imageTmpl (sub CODE_BLOCS_REGEX codeTmpl
    (sub TITLE_REGEX titleTmpl rest)), ?_⟩
  have hfmt : format_messages ⟨some (mkTitleText D k T rest), ts⟩ =
      .ok (sub IMAGES_REGEX imageTmpl (sub CODE_BLOCS_REGEX codeTmpl
        ("## ".toList ++ sub TITLE_REGEX titleTmpl (mkTitleText D k T rest)))) := by
    simp only [format_messages, if_pos hsearch]
  rw [hfmt, hsub1]
  have hassoc : "## ".toList ++ (T ++ (" -- ".toList ++ (D ++
      sub TITLE_REGEX titleTmpl rest))) =
      ("## ".toList ++ (T ++ (" -- ".toList ++ D))) ++
        sub TITLE_REGEX titleTmpl rest := by
    simp [List.append_assoc]
  rw [hassoc,
    sub_append_of_nostart hheadC (fun s g' r' hq => rmatches_CODE_consumed hq)
      _ _ hpre_nob,
    sub_append_of_nostart hheadI (fun s g' r' hq => rmatches_IMAGES_consumed hq)
      _ _ hpre_nolt]
  simp [List.append_assoc]

/-- Witness for C1 at a concrete title message in source order. -/
theorem C1_witness :
    ∃ tail : Str,
      format_messages ⟨some (mkTitleText "Monday".toList 1 "Tree".toList []),
          "9".toList⟩ =
        .ok ("## ".toList ++ ("Tree".toList ++ (" -- ".toList ++
          ("Monday".toList ++ tail)))) :=
  C1_amended "Monday".toList "Tree".toList [] 1 "9".toList (by decide) (by decide)
    (Or.inl rfl)

/-- Witness for C10: two messages with the same text and different other
fields. -/
theorem C10_witness :
    (∃ t, format_messages ⟨some "== a ==".toList, "1".toList⟩ = .ok t ∧
      format_messages ⟨some "== a ==".toList, "2".toList⟩ = .ok t) ∨
    ((∃ e1, format_messages ⟨some "== a ==".toList, "1".toList⟩ = .error e1) ∧
     (∃ e2, format_messages ⟨some "== a ==".toList, "2".toList⟩ = .error e2)) :=
  C10_deterministic ⟨some "== a ==".toList, "1".toList⟩
    ⟨some "== a ==".toList, "2".toList⟩ rfl

end DailyProgrammer
